import Mathlib

/-!
Verification of the bgpsec-sim routing simulator (`bgpsecsim/asys.py`,
`bgpsecsim/as_graph.py`, `bgpsecsim/cli.py`) against its natural-language
specification.

Shallow embedding conventions:
* Python `int` AS identifiers are `Int`; bitfields in the reachability
  analysis are `Nat`.
* Python dictionaries (insertion ordered) are association lists; updating an
  existing key replaces the value in place, a new key is appended at the end,
  which matches CPython dict semantics.
* Routes in the Python code carry references to `AS` objects in their `path`;
  per the spec's design notes an index-into-graph representation is an equally
  valid translation, so paths here are lists of AS identifiers and the graph
  resolves them.
* The work-queue loops of `find_routes_to` / `hijack_n_hops` are embedded with
  an explicit fuel parameter counting loop iterations.
* `bgpsecsim/routing_policy.py` and `bgpsecsim/error.py` are not part of the
  sources under verification; the default policy and the error classes are
  modelled from the spec (each such definition is marked in its doc comment).
-/

namespace BgpsecSim

/-- AS identifiers: Python `int` (the spec's data model calls them unsigned). -/
abbrev AS_ID := Int

/-- `Relation` enum from `asys.py`. -/
inductive Relation where
  | customer
  | peer
  | provider
deriving DecidableEq, Repr

/-- Association-list lookup, modelling Python `dict.get` / `dict[k]`. -/
def dlookup {α β : Type} [DecidableEq α] (k : α) : List (α × β) → Option β
  | [] => none
  | (a, b) :: l => if a = k then some b else dlookup k l

/-- Association-list insertion is spelled `dinsert`: existing keys are updated
in place (CPython dicts keep the original position), new keys are appended. -/
def dinsert {α β : Type} [DecidableEq α] (k : α) (v : β) : List (α × β) → List (α × β)
  | [] => [(k, v)]
  | (a, b) :: l => if a = k then (a, v) :: l else (a, b) :: dinsert k v l

/-- Keys of an association list, in order. -/
def dkeys {α β : Type} (l : List (α × β)) : List α := l.map Prod.fst

/-- `Route` from `asys.py`: destination, path (origin first, current receiver
last) and the three security flags. -/
structure Route where
  dest : AS_ID
  path : List AS_ID
  origin_invalid : Bool
  path_end_invalid : Bool
  authenticated : Bool
deriving DecidableEq, Repr

namespace Route

/-- `Route.length` property: `len(self.path)`. -/
def length (r : Route) : Nat := r.path.length

/-- `Route.origin` property: `self.path[0]` (absent for an empty path). -/
def origin? (r : Route) : Option AS_ID := r.path.head?

/-- `Route.first_hop` property: `self.path[-2]` (absent when `length < 2`). -/
def first_hop? (r : Route) : Option AS_ID := r.path.dropLast.getLast?

/-- `Route.final` property: `self.path[-1]` (absent for an empty path). -/
def final? (r : Route) : Option AS_ID := r.path.getLast?

/-- `Route.contains_cycle`: `len(self.path) != len(set(self.path))`. -/
def contains_cycle (r : Route) : Bool := decide (¬ r.path.Nodup)

theorem contains_cycle_eq_false_iff (r : Route) :
    r.contains_cycle = false ↔ r.path.Nodup := by
  simp [contains_cycle]

end Route

/-- `AS` node from `asys.py`. `policy` is a shared `DefaultPolicy` instance
and is therefore not part of the per-node state in this embedding. -/
structure AS where
  as_id : AS_ID
  neighbors : List (AS_ID × Relation)
  publishes_rpki : Bool
  publishes_path_end : Bool
  bgp_sec_enabled : Bool
  routing_table : List (AS_ID × Route)
deriving DecidableEq, Repr

namespace AS

/-- `AS.get_relation`. -/
def get_relation (a : AS) (asys : AS_ID) : Option Relation := dlookup asys a.neighbors

/-- `AS.get_route`. -/
def get_route (a : AS) (as_id : AS_ID) : Option Route := dlookup as_id a.routing_table

/-- `AS.add_peer`. -/
def add_peer (a : AS) (asys : AS_ID) : AS :=
  { a with neighbors := dinsert asys Relation.peer a.neighbors }

/-- `AS.add_customer`. -/
def add_customer (a : AS) (asys : AS_ID) : AS :=
  { a with neighbors := dinsert asys Relation.customer a.neighbors }

/-- `AS.add_provider`. -/
def add_provider (a : AS) (asys : AS_ID) : AS :=
  { a with neighbors := dinsert asys Relation.provider a.neighbors }

/-- `AS.reset_routing_table`: clear the table, then install the self route
`Route(self.as_id, [self], origin_invalid=False, path_end_invalid=False,
authenticated=True)`. -/
def reset_routing_table (a : AS) : AS :=
  { a with routing_table :=
      [(a.as_id, ⟨a.as_id, [a.as_id], false, false, true⟩)] }

/-- `AS.originate_route`: `Route(dest=self.as_id, path=[self, next_hop],
origin_invalid=False, path_end_invalid=False,
authenticated=self.bgp_sec_enabled)`. -/
def originate_route (a : AS) (next_hop : AS_ID) : Route :=
  ⟨a.as_id, [a.as_id, next_hop], false, false, a.bgp_sec_enabled⟩

end AS

/-- Rank used for the default policy's relation tie-break
(customer preferred over peer over provider); a missing relation ranks last. -/
def relationRank : Option Relation → Nat
  | some Relation.customer => 0
  | some Relation.peer => 1
  | some Relation.provider => 2
  | none => 3

/-- Modelled from the spec: `DefaultPolicy.accept_route` of
`bgpsecsim/routing_policy.py` (file not under `src/`). Spec §4.1: the default
policy rejects "routes whose path already contains the receiver (loop
prevention)", and spec §3 states the invariant "for accepted routes: no
repeated AS (loop-free)"; so a route is accepted iff its path has no repeated
AS, i.e. iff `route.contains_cycle()` is false. -/
def accept_route (r : Route) : Bool := !r.contains_cycle

/-- Modelled from the spec: `DefaultPolicy.prefer_route` of
`bgpsecsim/routing_policy.py` (file not under `src/`). Spec §4.1: "prefer
shorter paths, tie-break by (relation preference: customer > peer > provider)
on the next hop, then by lower next-hop AS_ID (deterministic tie-break)". The
next hop of an installed candidate is `route.first_hop`, and the relation is
the receiving AS's relation to it. Both routes are addressed to the same
receiver `self`. -/
def prefer_route (self : AS) (current new : Route) : Bool :=
  let curLen := current.length
  let newLen := new.length
  let curRank := relationRank (current.first_hop?.bind self.get_relation)
  let newRank := relationRank (new.first_hop?.bind self.get_relation)
  let curId := current.first_hop?.getD 0
  let newId := new.first_hop?.getD 0
  if newLen ≠ curLen then decide (newLen < curLen)
  else if newRank ≠ curRank then decide (newRank < curRank)
  else decide (newId < curId)

/-- Modelled from the spec: `DefaultPolicy.forward_to` of
`bgpsecsim/routing_policy.py` (file not under `src/`). Spec §4.1: "Standard
valley-free export: routes learned from a customer go to all; routes learned
from a peer or provider go only to customers." The route was learned from
`route.first_hop`, so the learned-from relation is the receiver's relation to
that AS. -/
def forward_to (self : AS) (r : Route) (rel : Relation) : Bool :=
  match r.first_hop?.bind self.get_relation with
  | some Relation.customer => true
  | _ => rel = Relation.customer

/-- `AS.learn_route` from `asys.py`: returns the updated AS together with the
list of neighbor AS ids to advertise the route to. -/
def AS.learn_route (self : AS) (r : Route) : AS × List AS_ID :=
  if r.dest = self.as_id then (self, [])
  else if !accept_route r then (self, [])
  else if (dlookup r.dest self.routing_table).isSome &&
          !(prefer_route self ((dlookup r.dest self.routing_table).getD r) r) then
    (self, [])
  else
    ({ self with routing_table := dinsert r.dest r self.routing_table },
     (self.neighbors.filter (fun p => forward_to self r p.2)).map Prod.fst)

/-- The error classes of the missing `bgpsecsim/error.py` together with the
Python builtin `ValueError`. Modelled from the spec: `InvalidASRelFile(path,
detail)` is spec §6/§7's load error; `valueError` stands for the Python
builtin `ValueError`, which realizes the spec's `InvalidArgument` error kind
(negative hop count, hijack with insufficient middle ASes). -/
inductive Err where
  | invalidASRelFile (filename : String) (detail : String)
  | valueError (msg : String)
deriving DecidableEq, Repr

/-- An undirected `networkx.Graph` whose edges carry the `customer` attribute,
as built by `parse_as_rel_file`. Nodes and edges are kept in insertion order;
an edge is identified by its unordered endpoint pair. -/
structure NxGraph where
  nodes : List AS_ID
  edges : List (AS_ID × AS_ID × Option AS_ID)
deriving DecidableEq, Repr

namespace NxGraph

/-- `as_id in graph` membership test. -/
def hasNode (g : NxGraph) (n : AS_ID) : Bool := g.nodes.contains n

/-- `graph.add_node(n)`: no-op when the node is present. -/
def add_node (g : NxGraph) (n : AS_ID) : NxGraph :=
  if g.hasNode n then g else { g with nodes := g.nodes ++ [n] }

/-- Whether two undirected edges have the same (unordered) endpoints. -/
def sameEdge (e f : AS_ID × AS_ID) : Bool :=
  (e.1 = f.1 && e.2 = f.2) || (e.1 = f.2 && e.2 = f.1)

/-- `graph.add_edge(a, b, customer=c)`: updates the attribute of an existing
edge in place (keeping its stored orientation), otherwise appends; endpoints
are added as nodes when missing (networkx semantics). -/
def add_edge (g : NxGraph) (a b : AS_ID) (c : Option AS_ID) : NxGraph :=
  let g := (g.add_node a).add_node b
  if g.edges.any (fun e => sameEdge (e.1, e.2.1) (a, b)) then
    { g with edges := g.edges.map (fun e =>
        if sameEdge (e.1, e.2.1) (a, b) then (e.1, e.2.1, c) else e) }
  else
    { g with edges := g.edges ++ [(a, b, c)] }

/-- Well-formedness facts that every `networkx.Graph` enjoys: node list has no
duplicates, every edge's endpoints are nodes, and no two stored edges share
the same unordered endpoint pair. -/
structure WF (g : NxGraph) : Prop where
  nodesNodup : g.nodes.Nodup
  edgeFst : ∀ e ∈ g.edges, e.1 ∈ g.nodes
  edgeSnd : ∀ e ∈ g.edges, e.2.1 ∈ g.nodes
  edgesNodup : g.edges.Pairwise (fun e f => sameEdge (e.1, e.2.1) (f.1, f.2.1) = false)

end NxGraph

/-- `line.startswith('#')`: whether the first character is `#`. (Defined on
the character list so that the kernel can evaluate it.) -/
def startsWithHash (s : String) : Bool :=
  match s.data with
  | c :: _ => c = '#'
  | [] => false

/-- Helper for `splitOnPipe`: accumulates the current field (reversed). -/
def splitOnPipeAux : List Char → List Char → List (List Char)
  | [], acc => [acc.reverse]
  | c :: cs, acc =>
    if c = '|' then acc.reverse :: splitOnPipeAux cs []
    else splitOnPipeAux cs (c :: acc)

/-- `line.split('|')` of Python with an explicit separator: the (possibly
empty) fields between `|` characters, as character lists. -/
def splitOnPipe (s : String) : List (List Char) := splitOnPipeAux s.data []

/-- The code points Python `int(str)` strips as surrounding whitespace:
CPython copies ASCII characters verbatim and its number parser then accepts
the C-locale spaces (tab through carriage return and space), while every
non-ASCII character with the Unicode whitespace property is first mapped to
a space by the decimal-and-space transform. (ASCII controls such as U+001C,
although `str.isspace`, are therefore rejected by `int`.) -/
def pySpaces : List Nat :=
  [9, 10, 11, 12, 13, 32, 133, 160, 5760, 8192, 8193, 8194, 8195, 8196,
   8197, 8198, 8199, 8200, 8201, 8202, 8232, 8233, 8239, 8287, 12288]

def pySpace (c : Char) : Bool := pySpaces.contains c.toNat

/-- First code points of the runs of Unicode decimal digits (category `Nd`,
Unicode 14.0 as shipped with CPython 3.11): each run holds the digits 0-9 in
code-point order, and `int(str)` maps each such character to its decimal
value. -/
def ndZeros : List Nat :=
  [48, 1632, 1776, 1984, 2406, 2534, 2662, 2790, 2918, 3046, 3174, 3302,
   3430, 3558, 3664, 3792, 3872, 4160, 4240, 6112, 6160, 6470, 6608, 6784,
   6800, 6992, 7088, 7232, 7248, 42528, 43216, 43264, 43472, 43504, 43600,
   44016, 65296, 66720, 68912, 69734, 69872, 69942, 70096, 70384, 70736,
   70864, 71248, 71360, 71472, 71904, 72016, 72784, 73040, 73120, 92768,
   92864, 93008, 120782, 120792, 120802, 120812, 120822, 123200, 123632,
   125264, 130032]

/-- The decimal value of a Unicode decimal-digit character, `none` for every
other character. -/
def pyDecimal (c : Char) : Option Nat :=
  match ndZeros.find? (fun z => z ≤ c.toNat && c.toNat ≤ z + 9) with
  | some z => some (c.toNat - z)
  | none => none

/-- A digit run with underscore grouping, continuing the accumulated value:
an underscore must be followed (and, by construction of the caller, is
preceded) by a digit, so `1_0` is ten while `_1`, `1_` and `1__0` fail. -/
def pyDigitsAux : Nat → List Char → Option Nat
  | acc, [] => some acc
  | acc, c :: rest =>
    match pyDecimal c with
    | some d => pyDigitsAux (10 * acc + d) rest
    | none =>
      if c = '_' then
        match rest with
        | c2 :: rest2 =>
          match pyDecimal c2 with
          | some d2 => pyDigitsAux (10 * acc + d2) rest2
          | none => none
        | [] => none
      else none

/-- A nonempty digit-and-underscore run starting with a digit. -/
def pyDigits : List Char → Option Nat
  | [] => none
  | c :: rest =>
    match pyDecimal c with
    | some d => pyDigitsAux d rest
    | none => none

/-- Strip of surrounding whitespace, as Python `int(str)` ignores it
(including the trailing newline of a file line). -/
def stripWs (l : List Char) : List Char :=
  ((l.dropWhile pySpace).reverse.dropWhile pySpace).reverse

/-- Python `int(s)` with base 10 on a field, modelled after CPython's
`PyLong_FromUnicodeObject`: surrounding whitespace (per `pySpace`) is
stripped, then an optional single ASCII sign precedes a nonempty run of
Unicode decimal digits in which underscores occur singly between digits;
`none` models the `ValueError` raised for every other string. -/
def pyInt (l : List Char) : Option Int :=
  match stripWs l with
  | [] => none
  | c :: rest =>
    if c = '+' then (pyDigits rest).map (fun n => (n : Int))
    else if c = '-' then (pyDigits rest).map (fun n => -(n : Int))
    else (pyDigits (c :: rest)).map (fun n => (n : Int))

/-- `parse_as_rel_file` from `as_graph.py`, over the list of lines of the
file. Comment lines starting with `#` are skipped; a line that does not split
into exactly 3 `|`-separated fields raises `InvalidASRelFile(filename, "bad
line: ...")`; the fields are then converted with `int` (a failure there is the
uncaught Python builtin `ValueError`); the edge's `customer` attribute is the
second AS when the relation code is `-1` and `None` otherwise. -/
def parse_as_rel_file (filename : String) (lines : List String) : Except Err NxGraph :=
  go lines { nodes := [], edges := [] }
where
  go : List String → NxGraph → Except Err NxGraph
    | [], g => .ok g
    | line :: rest, g =>
      if startsWithHash line then go rest g
      else
        let items := splitOnPipe line
        if items.length ≠ 3 then
          .error (.invalidASRelFile filename ("bad line: " ++ line))
        else
          match (items.map pyInt) with
          | [some as1, some as2, some rel] =>
            let g := g.add_node as1
            let g := g.add_node as2
            let customer : Option AS_ID := if rel = -1 then some as2 else none
            go rest (g.add_edge as1 as2 customer)
          | _ => .error (.valueError "invalid literal for int")

/-- `ASGraph` from `as_graph.py`: the mapping from AS id to AS node (the
shared policy object is the modelled `DefaultPolicy` and carries no state). -/
structure ASGraph where
  asyss : List (AS_ID × AS)
deriving DecidableEq, Repr

namespace ASGraph

/-- `ASGraph.get_asys`. -/
def get_asys (g : ASGraph) (as_id : AS_ID) : Option AS := dlookup as_id g.asyss

/-- Update the stored AS node under a key (Python mutates the object that
`self.asyss[as_id]` references). Absent keys are untouched (the Python code
would raise `KeyError`; the graphs in question always contain the key). -/
def updAS (g : ASGraph) (as_id : AS_ID) (f : AS → AS) : ASGraph :=
  { asyss := g.asyss.map (fun p => if p.1 = as_id then (p.1, f p.2) else p) }

/-- `ASGraph.__init__`: one fresh AS per node (flags default to `False`,
routing table reset to the self route by `AS.__init__`), then each edge
installs the mirrored relation pair on its two endpoints. -/
def ofNx (nxg : NxGraph) : ASGraph :=
  let init : ASGraph :=
    { asyss := nxg.nodes.map (fun id =>
        (id, AS.reset_routing_table ⟨id, [], false, false, false, []⟩)) }
  nxg.edges.foldl (fun g e =>
    let (as_id1, as_id2, customer) := e
    match customer with
    | none => (g.updAS as_id1 (·.add_peer as_id2)).updAS as_id2 (·.add_peer as_id1)
    | some c =>
      if c = as_id1 then
        (g.updAS as_id1 (·.add_provider as_id2)).updAS as_id2 (·.add_customer as_id1)
      else if c = as_id2 then
        (g.updAS as_id1 (·.add_customer as_id2)).updAS as_id2 (·.add_provider as_id1)
      else g) init

/-- `bgp_sec_enabled` flag of an AS in the graph (`False` for an absent id,
which never occurs on the graphs in question). -/
def enabled (g : ASGraph) (id : AS_ID) : Bool :=
  ((g.get_asys id).map AS.bgp_sec_enabled).getD false

/-- Experiment scripts toggle BGPsec by assigning `asys.bgp_sec_enabled`;
this models that attribute assignment. -/
def setBgpSec (g : ASGraph) (id : AS_ID) (b : Bool) : ASGraph :=
  g.updAS id (fun a => { a with bgp_sec_enabled := b })

/-- `AS.forward_route`: append the next hop to the path; `authenticated`
becomes `route.authenticated and next_hop.bgp_sec_enabled` (the receiving
neighbor's flag). Takes the graph because the Python route stores the AS
object itself. -/
def forward_route (g : ASGraph) (r : Route) (next_hop : AS_ID) : Route :=
  ⟨r.dest, r.path ++ [next_hop], r.origin_invalid, r.path_end_invalid,
   r.authenticated && g.enabled next_hop⟩

/-- The FIFO work-queue loop shared by `find_routes_to` and `hijack_n_hops`:
pop a route, let the AS at `route.final` learn it, and enqueue the forwarded
copies. `fuel` counts loop iterations (the Python loop runs until the queue
drains; every theorem below either holds for every fuel or is evaluated on a
run whose queue drains within the given fuel). -/
def propagate (g : ASGraph) : Nat → List Route → ASGraph
  | 0, _ => g
  | _ + 1, [] => g
  | fuel + 1, r :: rest =>
    match r.final? with
    | none => propagate g fuel rest
    | some fin =>
      match g.get_asys fin with
      | none => propagate g fuel rest
      | some asys =>
        let (asys', fwds) := asys.learn_route r
        let g' : ASGraph := { asyss := dinsert fin asys' g.asyss }
        propagate g' fuel (rest ++ fwds.map (fun n => forward_route g' r n))

/-- `ASGraph.clear_routing_tables`. -/
def clear_routing_tables (g : ASGraph) : ASGraph :=
  { asyss := g.asyss.map (fun p => (p.1, p.2.reset_routing_table)) }

/-- `ASGraph.find_routes_to(target)`: seed the queue with
`target.originate_route(neighbor)` for each neighbor, then drain it. -/
def find_routes_to (g : ASGraph) (target : AS_ID) (fuel : Nat) : ASGraph :=
  match g.get_asys target with
  | none => g
  | some t => propagate g fuel (t.neighbors.map (fun p => t.originate_route p.1))

/-- The forged path of `hijack_n_hops` (`n ≥ 0`; `middle` stands for the
result of `random.sample` in the `n ≥ 2` branch). -/
def hijack_path (victim attacker : AS_ID) (n : Int) (middle : List AS_ID) : List AS_ID :=
  if n = 0 then [attacker]
  else if n = 1 then [victim, attacker]
  else [victim] ++ middle ++ [attacker]

/-- The forged route of `hijack_n_hops`: `Route(victim.as_id, path,
origin_invalid=(n == 0), path_end_invalid=(n <= 1), authenticated=False)`. -/
def hijack_route (victim attacker : AS_ID) (n : Int) (middle : List AS_ID) : Route :=
  ⟨victim, hijack_path victim attacker n middle, decide (n = 0), decide (n ≤ 1), false⟩

/-- The population `list(set(self.asyss.values()) - set([victim, attacker]))`
that `random.sample` draws the middle hops from. -/
def hijack_candidates (g : ASGraph) (victim attacker : AS_ID) : List AS_ID :=
  (dkeys g.asyss).filter (fun id => id ≠ victim ∧ id ≠ attacker)

/-- `ASGraph.hijack_n_hops`. `middle` stands for the list returned by
`random.sample(asyss, n - 1)` in the `n ≥ 2` branch: per the Python library
contract it is a duplicate-free selection of `n - 1` elements of the
population and the call raises `ValueError` exactly when the population has
fewer than `n - 1` elements (theorems hypothesize that contract). The forged
route is forwarded to each of the attacker's neighbors without being installed
at the attacker, then the FIFO loop drains. -/
def hijack_n_hops (g : ASGraph) (victim attacker : AS_ID) (n : Int)
    (middle : List AS_ID) (fuel : Nat) : Except Err ASGraph :=
  if n < 0 then .error (.valueError "number of hops must be non-negative")
  else if 2 ≤ n ∧ ((g.hijack_candidates victim attacker).length : Int) < n - 1 then
    .error (.valueError "Sample larger than population or is negative")
  else
    let bad_route := hijack_route victim attacker n middle
    match g.get_asys attacker with
    | none => .ok g
    | some att =>
      .ok (propagate g fuel
        (att.neighbors.map (fun p => forward_route g bad_route p.1)))

end ASGraph

/-- Keep the first occurrence of each element, dropping later duplicates:
the effect of re-adding an edge to a `networkx` graph. -/
def dedupKeepFirst {α : Type} [DecidableEq α] : List α → List α
  | [] => []
  | a :: l => a :: (dedupKeepFirst l).filter (fun b => b ≠ a)

/-- Binary digit-sum worker for `bit_count`; the first argument is fuel
(structural recursion so that the kernel can evaluate it), sufficient
whenever `n ≤ fuel`. -/
def bit_count_aux : Nat → Nat → Nat
  | 0, _ => 0
  | fuel + 1, n => if n = 0 then 0 else n % 2 + bit_count_aux fuel (n / 2)

/-- `bit_count` from `as_graph.py`: `bin(bitfield).count('1')`, the number of
set bits. -/
def bit_count (n : Nat) : Nat := bit_count_aux n n

/-- The fuel of `bit_count_aux` is irrelevant once sufficient. -/
theorem bit_count_aux_congr :
    ∀ (f1 f2 n : Nat), n ≤ f1 → n ≤ f2 → bit_count_aux f1 n = bit_count_aux f2 n := by
  intro f1
  induction f1 with
  | zero =>
    intro f2 n h1 _
    have hn : n = 0 := Nat.le_zero.mp h1
    subst hn
    cases f2 <;> simp [bit_count_aux]
  | succ f ih =>
    intro f2 n h1 h2
    by_cases h0 : n = 0
    · subst h0
      cases f2 <;> simp [bit_count_aux]
    · cases f2 with
      | zero => omega
      | succ f2' =>
        simp only [bit_count_aux, h0, if_false]
        have hd : n / 2 ≤ f := by omega
        have hd2 : n / 2 ≤ f2' := by omega
        rw [ih f2' (n / 2) hd hd2]

theorem bit_count_eq (n : Nat) :
    bit_count n = if n = 0 then 0 else n % 2 + bit_count (n / 2) := by
  unfold bit_count
  by_cases h0 : n = 0
  · subst h0
    simp [bit_count_aux]
  · cases n with
    | zero => omega
    | succ m =>
      simp only [bit_count_aux, if_false, Nat.succ_ne_zero]
      have h1 : (m + 1) / 2 ≤ m := by omega
      rw [bit_count_aux_congr m ((m + 1) / 2) ((m + 1) / 2) h1 le_rfl]

/-- One growth step of a reachable set: the set together with all successors
of its members. -/
def growStep {ν : Type} [DecidableEq ν] (succ : ν → Finset ν) (S : Finset ν) : Finset ν :=
  S ∪ S.biUnion succ

/-- The set of nodes reachable from `x` along `succ` edges, computed by
iterating `growStep` `bound` times; with `bound` at least the number of graph
nodes plus one this is exactly reflexive-transitive reachability (proved
below). -/
def reachSet {ν : Type} [DecidableEq ν] (succ : ν → Finset ν) (bound : Nat) (x : ν) :
    Finset ν :=
  (growStep succ)^[bound] {x}

/-- The `'l'` / `'r'` side tags of the auxiliary reachability graph. -/
inductive Side where
  | l
  | r
deriving DecidableEq, Repr

/-- A node `(side, as_id)` of the auxiliary reachability graph. -/
abbrev AuxNode := Side × AS_ID

namespace ASGraph

/-- The nodes of `_build_reachability_graph`, in insertion order:
`('l', id), ('r', id)` for each AS. -/
def aux_nodes (g : ASGraph) : List AuxNode :=
  g.asyss.flatMap (fun p => [(Side.l, p.1), (Side.r, p.1)])

/-- The edges of `_build_reachability_graph`, in insertion order: the
`('l', v) → ('r', v)` edge for every `v`, then for every neighbor `w` of `v`
an edge `('r', v) → ('r', w)` (CUSTOMER), `('l', v) → ('r', w)` (PEER) or
`('l', v) → ('l', w)` (PROVIDER). Re-added edges are dropped, as
`networkx.DiGraph` stores an edge set. -/
def aux_edges (g : ASGraph) : List (AuxNode × AuxNode) :=
  dedupKeepFirst
    (g.asyss.map (fun p => ((Side.l, p.1), (Side.r, p.1))) ++
     g.asyss.flatMap (fun p =>
       p.2.neighbors.map (fun q =>
         match q.2 with
         | Relation.customer => ((Side.r, p.1), (Side.r, q.1))
         | Relation.peer => ((Side.l, p.1), (Side.r, q.1))
         | Relation.provider => ((Side.l, p.1), (Side.l, q.1)))))

/-- Successors of a node in the auxiliary graph, in edge-insertion order. -/
def aux_succs (g : ASGraph) (x : AuxNode) : List AuxNode :=
  (g.aux_edges.filter (fun e => e.1 = x)).map Prod.snd

/-- Predecessors of a node in the auxiliary graph. -/
def aux_preds (g : ASGraph) (x : AuxNode) : List AuxNode :=
  (g.aux_edges.filter (fun e => e.2 = x)).map Prod.fst

/-- `graph.in_degree(node)` on the auxiliary graph. -/
def aux_in_degree (g : ASGraph) (x : AuxNode) : Nat := (g.aux_preds x).length

/-- The iteration bound for reachability computations on the auxiliary
graph. -/
def aux_bound (g : ASGraph) : Nat := g.aux_nodes.length + 1

/-- `nx.ancestors(graph, x)`, modelled from the networkx documentation: the
set of all nodes having a (nonempty or empty) path to `x`, excluding `x`
itself; computed as reverse reachability. -/
def aux_ancestors (g : ASGraph) (x : AuxNode) : Finset AuxNode :=
  reachSet (fun y => (g.aux_preds y).toFinset) g.aux_bound x \ {x}

/-- `ASGraph.determine_reachability_one`: the number of `('l', u)` ancestors
of `('r', as_id)` in the auxiliary graph. -/
def determine_reachability_one (g : ASGraph) (as_id : AS_ID) : Nat :=
  ((g.aux_ancestors (Side.r, as_id)).filter (fun x => x.1 = Side.l)).card

/-- The seed bitfield of an auxiliary node: `1 << as_id` on the `'l'` side,
`0` on the `'r'` side. (Bitfields are naturals; Python would raise on a
negative shift, and the spec's AS identifiers are unsigned.) -/
def seedOf : AuxNode → Nat
  | (Side.l, v) => 1 <<< v.toNat
  | (Side.r, _) => 0

/-- The inner `for next_node in graph.successors(node)` loop of
`determine_reachability_all`: OR the popped node's bitfield into each
successor, decrement its remaining-edge count, and append it to the queue
when the count hits zero. (The Python `del remaining_edges[...]` bookkeeping
is modelled by the count having reached zero.) -/
def kahnFold (labels rem : AuxNode → Nat) (queue : List AuxNode) (src : AuxNode) :
    List AuxNode → (AuxNode → Nat) × (AuxNode → Nat) × List AuxNode
  | [] => (labels, rem, queue)
  | nxt :: tl =>
    let labels' := fun x => if x = nxt then labels nxt ||| labels src else labels x
    let newRem := rem nxt - 1
    let rem' := fun x => if x = nxt then newRem else rem x
    let queue' := if newRem = 0 then queue ++ [nxt] else queue
    kahnFold labels' rem' queue' src tl

/-- The `while queue` loop of `determine_reachability_all`. `fuel` counts
pops; every node is enqueued at most once, so `aux_bound` fuel always drains
the queue. -/
def kahnLoop (succf : AuxNode → List AuxNode) :
    Nat → (AuxNode → Nat) → (AuxNode → Nat) → List AuxNode → (AuxNode → Nat)
  | 0, labels, _, _ => labels
  | _ + 1, labels, _, [] => labels
  | fuel + 1, labels, rem, node :: rest =>
    let (labels', rem', queue') := kahnFold labels rem rest node (succf node)
    kahnLoop succf fuel labels' rem' queue'

/-- `ASGraph.determine_reachability_all`: seed each `('l', v)` with bit `v`,
process the auxiliary graph in Kahn topological order propagating the
bitfields, and return `bit_count` of each `('r', v)`'s bitfield. -/
def determine_reachability_all (g : ASGraph) : List (AS_ID × Nat) :=
  let queue0 := g.aux_nodes.filter (fun x => g.aux_in_degree x = 0)
  let final := kahnLoop g.aux_succs g.aux_bound seedOf g.aux_in_degree queue0
  g.asyss.map (fun p => (p.1, bit_count (final (Side.r, p.1))))

/-- Successors in the customer digraph of `any_customer_provider_cycles`:
the neighbors that `v` views as CUSTOMER. -/
def cust_succs (g : ASGraph) (v : AS_ID) : List AS_ID :=
  match g.get_asys v with
  | none => []
  | some a => (a.neighbors.filter (fun q => q.2 = Relation.customer)).map Prod.fst

/-- `ASGraph.any_customer_provider_cycles`: whether the digraph with an edge
from each AS to each of its CUSTOMER neighbors has a directed cycle
(`not nx.is_directed_acyclic_graph(...)`, modelled from the networkx
documentation: a cycle exists iff some node reaches itself by a nonempty
path). -/
def any_customer_provider_cycles (g : ASGraph) : Bool :=
  (dkeys g.asyss).any (fun v =>
    (g.cust_succs v).any (fun w =>
      decide (v ∈ reachSet (fun y => (g.cust_succs y).toFinset)
        (g.asyss.length + 1) w)))

end ASGraph

/-! ### Association-list lemmas -/

theorem dlookup_mem {α β : Type} [DecidableEq α] {k : α} {v : β} :
    ∀ {l : List (α × β)}, dlookup k l = some v → (k, v) ∈ l := by
  intro l
  induction l with
  | nil => simp [dlookup]
  | cons p t ih =>
    obtain ⟨a, b⟩ := p
    simp only [dlookup]
    split
    · rename_i hak
      intro h
      cases h
      subst hak
      simp
    · intro h
      exact List.mem_cons_of_mem _ (ih h)

theorem mem_dinsert {α β : Type} [DecidableEq α] {k : α} {v : β} {q : α × β} :
    ∀ {l : List (α × β)}, q ∈ dinsert k v l → q = (k, v) ∨ q ∈ l := by
  intro l
  induction l with
  | nil => simp [dinsert]
  | cons p t ih =>
    obtain ⟨a, b⟩ := p
    simp only [dinsert]
    split
    · rename_i hak
      subst hak
      intro h
      rcases List.mem_cons.mp h with h | h
      · exact Or.inl (by simpa using h)
      · exact Or.inr (List.mem_cons_of_mem _ h)
    · intro h
      rcases List.mem_cons.mp h with h | h
      · exact Or.inr (by simp [h])
      · rcases ih h with h' | h'
        · exact Or.inl h'
        · exact Or.inr (List.mem_cons_of_mem _ h')

theorem dlookup_dinsert_self {α β : Type} [DecidableEq α] (k : α) (v : β) :
    ∀ (l : List (α × β)), dlookup k (dinsert k v l) = some v := by
  intro l
  induction l with
  | nil => simp [dinsert, dlookup]
  | cons p t ih =>
    obtain ⟨a, b⟩ := p
    simp only [dinsert]
    split
    · rename_i hak
      simp [dlookup, hak]
    · rename_i hak
      simp [dlookup, hak, ih]

theorem dlookup_dinsert_ne {α β : Type} [DecidableEq α] {k k' : α} (v : β)
    (hne : k' ≠ k) : ∀ (l : List (α × β)), dlookup k' (dinsert k v l) = dlookup k' l := by
  have hkk : k ≠ k' := fun h => hne h.symm
  intro l
  induction l with
  | nil => simp [dinsert, dlookup, hkk]
  | cons p t ih =>
    obtain ⟨a, b⟩ := p
    simp only [dinsert]
    split
    · rename_i hak
      subst hak
      simp [dlookup, hkk]
    · simp only [dlookup, ih]

/-! ### Route and policy lemmas -/

theorem accept_route_iff_nodup (r : Route) : accept_route r = true ↔ r.path.Nodup := by
  simp [accept_route, Route.contains_cycle]

theorem final_eq_getLast {r : Route} {fin : AS_ID} (h : r.final? = some fin) :
    r.path.getLast? = some fin := h

/-- `learn_route` either leaves the AS untouched with nothing to forward, or
installs the (loop-free, non-self) route in the table. -/
theorem learn_route_cases (a : AS) (r : Route) :
    a.learn_route r = (a, []) ∨
    ((a.learn_route r).1 = { a with routing_table := dinsert r.dest r a.routing_table } ∧
      accept_route r = true ∧ r.dest ≠ a.as_id) := by
  unfold AS.learn_route
  split
  · exact Or.inl rfl
  · split
    · exact Or.inl rfl
    · split
      · exact Or.inl rfl
      · rename_i h1 h2 _
        refine Or.inr ⟨rfl, ?_, h1⟩
        cases hacc : accept_route r with
        | false => simp [hacc] at h2
        | true => rfl

/-- `learn_route` only ever modifies the routing table. -/
theorem learn_route_fields (a : AS) (r : Route) :
    (a.learn_route r).1.as_id = a.as_id ∧
    (a.learn_route r).1.neighbors = a.neighbors ∧
    (a.learn_route r).1.bgp_sec_enabled = a.bgp_sec_enabled := by
  rcases learn_route_cases a r with h | h
  · rw [h]
    exact ⟨rfl, rfl, rfl⟩
  · rw [h.1]
    exact ⟨rfl, rfl, rfl⟩

namespace ASGraph

/-- The generic preservation principle for the FIFO propagation loop: a graph
invariant `Gp` together with a queue-route invariant `Rp` survives
`propagate` provided `Gp` survives each `learn_route` install of an
`Rp`-route and forwarded copies of `Rp`-routes keep `Rp`. -/
theorem propagate_preserves (Gp : ASGraph → Prop) (Rp : Route → Prop)
    (hlearn : ∀ (g : ASGraph) (fin : AS_ID) (asys : AS) (r : Route),
      Gp g → Rp r → r.final? = some fin → g.get_asys fin = some asys →
      Gp ⟨dinsert fin (asys.learn_route r).1 g.asyss⟩)
    (hfwd : ∀ (g' : ASGraph) (r : Route) (m : AS_ID),
      Gp g' → Rp r → Rp (g'.forward_route r m)) :
    ∀ (fuel : Nat) (queue : List Route) (g : ASGraph),
      Gp g → (∀ r ∈ queue, Rp r) → Gp (propagate g fuel queue) := by
  intro fuel
  induction fuel with
  | zero => intro queue g hg _; simpa [propagate] using hg
  | succ n ih =>
    intro queue g hg hq
    match queue with
    | [] => simpa [propagate] using hg
    | r :: rest =>
      cases hfin : r.final? with
      | none =>
        simp only [propagate, hfin]
        exact ih rest g hg (fun s hs => hq s (List.mem_cons_of_mem _ hs))
      | some fin =>
        cases hget : g.get_asys fin with
        | none =>
          simp only [propagate, hfin, hget]
          exact ih rest g hg (fun s hs => hq s (List.mem_cons_of_mem _ hs))
        | some asys =>
          simp only [propagate, hfin, hget]
          have hr : Rp r := hq r (List.mem_cons_self r rest)
          have hg' : Gp ⟨dinsert fin (asys.learn_route r).1 g.asyss⟩ :=
            hlearn g fin asys r hg hr hfin hget
          apply ih _ _ hg'
          intro s hs
          rcases List.mem_append.mp hs with hs | hs
          · exact hq s (List.mem_cons_of_mem _ hs)
          · rcases List.mem_map.mp hs with ⟨m, _, rfl⟩
            exact hfwd _ r m hg' hr

/-- `propagate` never changes an AS's identifier, neighbor map or BGPsec
flag; consequently `enabled` and the neighbor relations of the graph are
untouched by propagation. -/
theorem propagate_skeleton (g0 : ASGraph) (fuel : Nat) (queue : List Route) :
    ∀ id : AS_ID, ((propagate g0 fuel queue).get_asys id).map
        (fun a => (a.as_id, a.neighbors, a.bgp_sec_enabled)) =
      (g0.get_asys id).map (fun a => (a.as_id, a.neighbors, a.bgp_sec_enabled)) := by
  have h := propagate_preserves
    (fun g => ∀ id : AS_ID, (g.get_asys id).map
        (fun a => (a.as_id, a.neighbors, a.bgp_sec_enabled)) =
      (g0.get_asys id).map (fun a => (a.as_id, a.neighbors, a.bgp_sec_enabled)))
    (fun _ => True)
    (fun g fin asys r hg _ _ hget => by
      intro id
      by_cases hid : id = fin
      · subst hid
        have : (⟨dinsert id (asys.learn_route r).1 g.asyss⟩ : ASGraph).get_asys id =
            some (asys.learn_route r).1 := dlookup_dinsert_self id _ g.asyss
        rw [this, ← hg id, hget]
        have hf := learn_route_fields asys r
        simp [hf.1, hf.2.1, hf.2.2]
      · have : (⟨dinsert fin (asys.learn_route r).1 g.asyss⟩ : ASGraph).get_asys id =
            g.get_asys id := dlookup_dinsert_ne _ hid g.asyss
        rw [this, hg id])
    (fun _ _ _ _ _ => trivial)
  exact h fuel queue g0 (fun _ => rfl) (fun _ _ => trivial)

theorem propagate_enabled (g0 : ASGraph) (fuel : Nat) (queue : List Route) :
    (propagate g0 fuel queue).enabled = g0.enabled := by
  funext id
  have h := propagate_skeleton g0 fuel queue id
  unfold enabled
  match h1 : (propagate g0 fuel queue).get_asys id, h2 : g0.get_asys id with
  | none, none => rfl
  | none, some b => rw [h1, h2] at h; simp at h
  | some a, none => rw [h1, h2] at h; simp at h
  | some a, some b =>
    rw [h1, h2] at h
    have hab : (a.as_id, a.neighbors, a.bgp_sec_enabled) =
        (b.as_id, b.neighbors, b.bgp_sec_enabled) := by simpa using h
    show a.bgp_sec_enabled = b.bgp_sec_enabled
    exact congrArg (fun t => t.2.2) hab

end ASGraph

/-! ### Reachable states and the routing-table invariant -/

/-- The graph states reachable from a freshly constructed graph by the public
operations (`clear_routing_tables`, `find_routes_to`, `hijack_n_hops`);
experiment scripts may also toggle the BGPsec flag of an AS. -/
inductive Reachable : ASGraph → Prop where
  | init (nxg : NxGraph) (hwf : nxg.WF) : Reachable (ASGraph.ofNx nxg)
  | clear {g : ASGraph} : Reachable g → Reachable g.clear_routing_tables
  | find {g : ASGraph} (target : AS_ID) (fuel : Nat) :
      Reachable g → Reachable (g.find_routes_to target fuel)
  | hijack {g g' : ASGraph} (victim attacker : AS_ID) (n : Int)
      (middle : List AS_ID) (fuel : Nat) :
      Reachable g → g.hijack_n_hops victim attacker n middle fuel = .ok g' →
      Reachable g'
  | setsec {g : ASGraph} (id : AS_ID) (b : Bool) :
      Reachable g → Reachable (g.setBgpSec id b)

/-- The structural invariant of a graph state: every AS is stored under its
own identifier, and every routing-table entry `(d, r)` has `r.dest = d`, ends
its path at the owning AS, and has a duplicate-free path. -/
def StateInv (g : ASGraph) : Prop :=
  ∀ (id : AS_ID) (a : AS), (id, a) ∈ g.asyss → a.as_id = id ∧
    ∀ (d : AS_ID) (r : Route), (d, r) ∈ a.routing_table → r.dest = d ∧
      r.path.getLast? = some a.as_id ∧ r.path.Nodup

theorem stateInv_updAS {g : ASGraph} (i : AS_ID) (f : AS → AS)
    (hf : ∀ a : AS, (f a).as_id = a.as_id ∧ (f a).routing_table = a.routing_table)
    (hg : StateInv g) : StateInv (g.updAS i f) := by
  intro id a hp
  rcases List.mem_map.mp hp with ⟨⟨id0, a0⟩, hp0, hpe⟩
  have h0 := hg id0 a0 hp0
  by_cases hid : id0 = i
  · simp only [hid, if_true] at hpe
    cases hpe
    refine ⟨by rw [(hf a0).1, h0.1, hid], ?_⟩
    rw [(hf a0).2, (hf a0).1]
    exact h0.2
  · simp only [hid, if_false] at hpe
    cases hpe
    exact h0

theorem stateInv_selfTables (l : List AS_ID) :
    StateInv ⟨l.map (fun id =>
      (id, AS.reset_routing_table ⟨id, [], false, false, false, []⟩))⟩ := by
  intro id a hp
  rcases List.mem_map.mp hp with ⟨i, _, hpe⟩
  cases hpe
  refine ⟨rfl, ?_⟩
  intro d r hq
  simp only [AS.reset_routing_table, List.mem_singleton, Prod.mk.injEq] at hq
  obtain ⟨hd, hr⟩ := hq
  subst hd
  subst hr
  exact ⟨rfl, rfl, by simp⟩

theorem stateInv_ofNx (nxg : NxGraph) : StateInv (ASGraph.ofNx nxg) := by
  unfold ASGraph.ofNx
  have hstep : ∀ (G : ASGraph) (e : AS_ID × AS_ID × Option AS_ID), StateInv G →
      StateInv ((fun (g : ASGraph) (e : AS_ID × AS_ID × Option AS_ID) =>
        match e.2.2 with
        | none => (g.updAS e.1 (·.add_peer e.2.1)).updAS e.2.1 (·.add_peer e.1)
        | some c =>
          if c = e.1 then
            (g.updAS e.1 (·.add_provider e.2.1)).updAS e.2.1 (·.add_customer e.1)
          else if c = e.2.1 then
            (g.updAS e.1 (·.add_customer e.2.1)).updAS e.2.1 (·.add_provider e.1)
          else g) G e) := by
    intro G e hG
    obtain ⟨a1, a2, c⟩ := e
    cases c with
    | none =>
      exact stateInv_updAS _ _ (fun _ => ⟨rfl, rfl⟩)
        (stateInv_updAS _ _ (fun _ => ⟨rfl, rfl⟩) hG)
    | some cv =>
      dsimp only
      split
      · exact stateInv_updAS _ _ (fun _ => ⟨rfl, rfl⟩)
          (stateInv_updAS _ _ (fun _ => ⟨rfl, rfl⟩) hG)
      · split
        · exact stateInv_updAS _ _ (fun _ => ⟨rfl, rfl⟩)
            (stateInv_updAS _ _ (fun _ => ⟨rfl, rfl⟩) hG)
        · exact hG
  have hinit := stateInv_selfTables nxg.nodes
  generalize hG : (⟨nxg.nodes.map (fun id =>
      (id, AS.reset_routing_table ⟨id, [], false, false, false, []⟩))⟩ : ASGraph) = G
  rw [hG] at hinit
  clear hG
  induction nxg.edges generalizing G with
  | nil => simpa using hinit
  | cons e t ih =>
    simp only [List.foldl_cons]
    apply ih
    have := hstep G e hinit
    obtain ⟨a1, a2, c⟩ := e
    exact this

theorem stateInv_propagate {g : ASGraph} (hg : StateInv g) (fuel : Nat)
    (queue : List Route) : StateInv (ASGraph.propagate g fuel queue) := by
  refine ASGraph.propagate_preserves StateInv (fun _ => True) ?_ (fun _ _ _ _ _ => trivial)
    fuel queue g hg (fun _ _ => trivial)
  intro g fin asys r hginv _ hfin hget
  intro id a hp
  rcases mem_dinsert hp with hpe | hp0
  · have hmem : (fin, asys) ∈ g.asyss := dlookup_mem hget
    have hasys := hginv fin asys hmem
    have hide : (asys.learn_route r).1.as_id = asys.as_id := (learn_route_fields asys r).1
    have hidq : id = fin := congrArg Prod.fst hpe
    have haq : a = (asys.learn_route r).1 := congrArg Prod.snd hpe
    subst hidq
    subst haq
    refine ⟨by rw [hide, hasys.1], ?_⟩
    rcases learn_route_cases asys r with hcase | hcase
    · have h1 : (asys.learn_route r).1 = asys := congrArg Prod.fst hcase
      rw [h1]
      intro d s hq
      exact hasys.2 d s hq
    · rw [hcase.1]
      intro d s hq
      rcases mem_dinsert hq with hqe | hq0
      · have hd : d = r.dest := congrArg Prod.fst hqe
        have hs : s = r := congrArg Prod.snd hqe
        subst hd
        subst hs
        refine ⟨rfl, ?_, (accept_route_iff_nodup s).mp hcase.2.1⟩
        show s.path.getLast? = some asys.as_id
        rw [hasys.1]
        exact final_eq_getLast hfin
      · exact hasys.2 d s hq0
  · exact hginv id a hp0

theorem stateInv_clear {g : ASGraph} (hg : StateInv g) :
    StateInv g.clear_routing_tables := by
  intro id a hp
  rcases List.mem_map.mp hp with ⟨⟨id0, a0⟩, hp0, hpe⟩
  have hid : id = id0 := (congrArg Prod.fst hpe).symm
  have ha : a = a0.reset_routing_table := (congrArg Prod.snd hpe).symm
  subst hid
  subst ha
  have h0 := hg id a0 hp0
  refine ⟨h0.1, ?_⟩
  intro d r hq
  simp only [AS.reset_routing_table, List.mem_singleton, Prod.mk.injEq] at hq
  obtain ⟨hd, hr⟩ := hq
  subst hd
  subst hr
  exact ⟨rfl, rfl, by simp⟩

theorem reachable_stateInv : ∀ {g : ASGraph}, Reachable g → StateInv g := by
  intro g hg
  induction hg with
  | init nxg hwf => exact stateInv_ofNx nxg
  | clear _ ih => exact stateInv_clear ih
  | find target fuel hr ih =>
    rename_i g0
    unfold ASGraph.find_routes_to
    cases hget : g0.get_asys target with
    | none => exact ih
    | some t => exact stateInv_propagate ih _ _
  | hijack victim attacker n middle fuel hr hok ih =>
    rename_i g0 g1
    unfold ASGraph.hijack_n_hops at hok
    split at hok
    · cases hok
    · split at hok
      · cases hok
      · revert hok
        cases hget : g0.get_asys attacker with
        | none =>
          intro hok
          cases hok
          exact ih
        | some att =>
          intro hok
          cases hok
          exact stateInv_propagate ih _ _
  | setsec id b hr ih =>
    exact stateInv_updAS _ _ (fun a => ⟨rfl, rfl⟩) ih

/-! ### Concrete scenario graphs -/

/-- Spec scenario 2/6 chain: AS 1 is a customer of AS 2, AS 2 is a customer
of AS 3 (`customer` attribute names the customer endpoint). -/
def chainNx : NxGraph := ⟨[1, 2, 3], [(1, 2, some 1), (2, 3, some 2)]⟩

def chainGraph : ASGraph := ASGraph.ofNx chainNx

/-- The chain with BGPsec enabled on all three ASes. -/
def chainAllOn : ASGraph :=
  ((chainGraph.setBgpSec 1 true).setBgpSec 2 true).setBgpSec 3 true

/-- The chain with BGPsec then disabled on AS 2 only. -/
def chainTwoOff : ASGraph := chainAllOn.setBgpSec 2 false

/-- Four isolated ASes. -/
def fourGraph : ASGraph := ASGraph.ofNx ⟨[1, 2, 3, 4], []⟩

/-- Customer cycle 2 → 1, 3 → 2, 1 → 3 (each edge's `customer` attribute
names the customer endpoint, so AS 1 views 3 as CUSTOMER, and so on). -/
def cyclicGraph : ASGraph :=
  ASGraph.ofNx ⟨[1, 2, 3], [(1, 2, some 1), (2, 3, some 2), (3, 1, some 3)]⟩

/-- Chain 1-2-3 plus two spare ASes 4 and 5 used as hijack middle hops. -/
def hijackNx : NxGraph := ⟨[1, 2, 3, 4, 5], [(1, 2, some 1), (2, 3, some 2)]⟩

/-! ### Claims -/

/-- C10: for every AS `a`, `reset_routing_table` installs the self route
with `authenticated = true` and both `origin_invalid` and `path_end_invalid`
false, and nothing else; the statement quantifies over every `a`, so in
particular it holds when `a.bgp_sec_enabled = false`: the self route reads as
BGPsec-authenticated even when the AS does not have BGPsec enabled. -/
theorem C10_reset_self_route_always_authenticated (a : AS) :
    a.reset_routing_table.routing_table =
      [(a.as_id, ⟨a.as_id, [a.as_id], false, false, true⟩)] ∧
    a.reset_routing_table.get_route a.as_id =
      some ⟨a.as_id, [a.as_id], false, false, true⟩ := by
  refine ⟨rfl, ?_⟩
  simp [AS.reset_routing_table, AS.get_route, dlookup]

/-- C2: in every state reachable from a freshly constructed graph by the
public operations, for every AS `a` and every routing-table entry `(d, r)`:
`r.dest = d`, the last element of `r.path` is `a`, and `r.path` has no
repeated AS. -/
theorem C2_routing_table_invariant {g : ASGraph} (hg : Reachable g) :
    ∀ (id : AS_ID) (a : AS), (id, a) ∈ g.asyss →
      ∀ (d : AS_ID) (r : Route), (d, r) ∈ a.routing_table →
        r.dest = d ∧ r.path.getLast? = some a.as_id ∧ r.path.Nodup :=
  fun id a hp d r hq => (reachable_stateInv hg id a hp).2 d r hq

/-- The AS node of id 1 in the freshly constructed chain graph, with its
self route. -/
def chainAS1 : AS :=
  ⟨1, [(2, Relation.provider)], false, false, false, [(1, ⟨1, [1], false, false, true⟩)]⟩

theorem C2_routing_table_invariant_witness :
    (Route.mk 1 [1] false false true).dest = 1 ∧
    (Route.mk 1 [1] false false true).path.getLast? = some chainAS1.as_id ∧
    (Route.mk 1 [1] false false true).path.Nodup :=
  C2_routing_table_invariant
    (Reachable.init chainNx ⟨by decide, by decide, by decide, by decide⟩)
    1 chainAS1 (by decide) 1 (Route.mk 1 [1] false false true) (by decide)

/-- C6: the reachability queries do not fail on a cyclic topology. On the
3-cycle of customer edges, `any_customer_provider_cycles` is `true`, yet
`determine_reachability_all` returns a count for every AS (all zero: the
Kahn traversal processes no node because every auxiliary node has an
incoming edge) and `determine_reachability_one` returns the ancestor count 3
— both contradicting the documented claim that these queries fail with
`InvalidArgument` on a cyclic topology (and `determine_reachability_all`'s
own docstring, since every AS can reach itself, so no true count is 0). -/
theorem C6_cyclic_queries_return_counts :
    cyclicGraph.any_customer_provider_cycles = true ∧
    cyclicGraph.determine_reachability_all = [(1, 0), (2, 0), (3, 0)] ∧
    cyclicGraph.determine_reachability_one 1 = 3 :=
  ⟨rfl, rfl, rfl⟩

/-- C3: the forged route of `hijack_n_hops` has `dest = victim` and
`authenticated = false` in every case; for `n = 0` the path is `[attacker]`
with both invalidity flags true; for `n = 1` it is `[victim, attacker]` with
`origin_invalid` false and `path_end_invalid` true; for `n ≥ 2` it is
`[victim] ++ middle ++ [attacker]` with both flags false, where the middle
hops — the `random.sample` outcome, here any list satisfying that library
call's contract — are `n - 1` pairwise distinct ASes drawn from the graph's
ASes other than victim and attacker. -/
theorem C3_hijack_forged_route (g : ASGraph) (victim attacker : AS_ID) (n : Int)
    (middle : List AS_ID)
    (hnd : middle.Nodup)
    (hdraw : ∀ m ∈ middle, m ∈ g.hijack_candidates victim attacker)
    (hlen : middle.length = (n - 1).toNat) :
    (ASGraph.hijack_route victim attacker n middle).dest = victim ∧
    (ASGraph.hijack_route victim attacker n middle).authenticated = false ∧
    (n = 0 →
      (ASGraph.hijack_route victim attacker n middle).path = [attacker] ∧
      (ASGraph.hijack_route victim attacker n middle).origin_invalid = true ∧
      (ASGraph.hijack_route victim attacker n middle).path_end_invalid = true) ∧
    (n = 1 →
      (ASGraph.hijack_route victim attacker n middle).path = [victim, attacker] ∧
      (ASGraph.hijack_route victim attacker n middle).origin_invalid = false ∧
      (ASGraph.hijack_route victim attacker n middle).path_end_invalid = true) ∧
    (2 ≤ n →
      (ASGraph.hijack_route victim attacker n middle).path =
        [victim] ++ middle ++ [attacker] ∧
      middle.length = (n - 1).toNat ∧ middle.Nodup ∧
      (∀ m ∈ middle, m ∈ dkeys g.asyss ∧ m ≠ victim ∧ m ≠ attacker) ∧
      (ASGraph.hijack_route victim attacker n middle).origin_invalid = false ∧
      (ASGraph.hijack_route victim attacker n middle).path_end_invalid = false) := by
  refine ⟨rfl, rfl, ?_, ?_, ?_⟩
  · intro h0
    subst h0
    exact ⟨rfl, rfl, rfl⟩
  · intro h1
    subst h1
    exact ⟨rfl, rfl, rfl⟩
  · intro h2
    have hn0 : n ≠ 0 := by omega
    have hn1 : n ≠ 1 := by omega
    have hnle : ¬ n ≤ 1 := by omega
    refine ⟨?_, hlen, hnd, ?_, ?_, ?_⟩
    · simp [ASGraph.hijack_route, ASGraph.hijack_path, hn0, hn1]
    · intro m hm
      have := hdraw m hm
      unfold ASGraph.hijack_candidates at this
      have h := List.mem_filter.mp this
      refine ⟨h.1, ?_, ?_⟩
      · have := h.2
        simp only [decide_eq_true_eq] at this
        exact this.1
      · have := h.2
        simp only [decide_eq_true_eq] at this
        exact this.2
    · simp [ASGraph.hijack_route, hn0]
    · simp [ASGraph.hijack_route, hnle]

theorem C3_hijack_forged_route_witness :
    (ASGraph.hijack_route 1 2 3 [3, 4]).path = [1] ++ [3, 4] ++ [2] ∧
    (ASGraph.hijack_route 1 2 3 [3, 4]).authenticated = false ∧
    (ASGraph.hijack_route 1 2 3 [3, 4]).dest = 1 :=
  ⟨((C3_hijack_forged_route fourGraph 1 2 3 [3, 4] (by decide) (by decide)
      (by decide)).2.2.2.2 (by decide)).1,
   (C3_hijack_forged_route fourGraph 1 2 3 [3, 4] (by decide) (by decide)
      (by decide)).2.1,
   (C3_hijack_forged_route fourGraph 1 2 3 [3, 4] (by decide) (by decide)
      (by decide)).1⟩

/-- C4: `hijack_n_hops` fails — with the Python `ValueError` that realizes
the spec's `InvalidArgument` kind — exactly when `n < 0` or the graph has
fewer than `n - 1` ASes other than victim and attacker; every failure is of
that kind. On failure the function aborts before the propagation loop, so no
routing table is modified (the error carries no graph state at all). -/
theorem C4_hijack_failure_condition (g : ASGraph) (victim attacker : AS_ID)
    (n : Int) (middle : List AS_ID) (fuel : Nat) :
    ((∃ msg, g.hijack_n_hops victim attacker n middle fuel =
        .error (.valueError msg)) ↔
      (n < 0 ∨ ((g.hijack_candidates victim attacker).length : Int) < n - 1)) ∧
    (∀ e, g.hijack_n_hops victim attacker n middle fuel = .error e →
      ∃ msg, e = Err.valueError msg) := by
  unfold ASGraph.hijack_n_hops
  by_cases hn : n < 0
  · rw [if_pos hn]
    constructor
    · constructor
      · intro _
        exact Or.inl hn
      · intro _
        exact ⟨_, rfl⟩
    · intro e he
      exact ⟨_, (Except.error.inj he).symm⟩
  · rw [if_neg hn]
    by_cases hs : 2 ≤ n ∧ ((g.hijack_candidates victim attacker).length : Int) < n - 1
    · rw [if_pos hs]
      constructor
      · constructor
        · intro _
          exact Or.inr hs.2
        · intro _
          exact ⟨_, rfl⟩
      · intro e he
        exact ⟨_, (Except.error.inj he).symm⟩
    · rw [if_neg hs]
      have h0 : (0 : Int) ≤ ((g.hijack_candidates victim attacker).length : Int) := by
        exact_mod_cast Nat.zero_le _
      have hcond : ¬ (n < 0 ∨
          ((g.hijack_candidates victim attacker).length : Int) < n - 1) := by
        omega
      cases hget : g.get_asys attacker with
      | none =>
        simp only [hget]
        refine ⟨⟨?_, ?_⟩, ?_⟩
        · rintro ⟨msg, hmsg⟩
          cases hmsg
        · intro h
          exact absurd h hcond
        · intro e he
          cases he
      | some att =>
        simp only [hget]
        refine ⟨⟨?_, ?_⟩, ?_⟩
        · rintro ⟨msg, hmsg⟩
          cases hmsg
        · intro h
          exact absurd h hcond
        · intro e he
          cases he

theorem C4_hijack_failure_condition_witness :
    ∃ msg, fourGraph.hijack_n_hops 1 2 (-1) [] 5 = .error (.valueError msg) :=
  (C4_hijack_failure_condition fourGraph 1 2 (-1) [] 5).1.mpr (Or.inl (by decide))

/-- C7 counterexample: the line `1|2|5` is not of the form
`\\d+|\\d+|(-1|0)` — its relation code is 5 — yet `parse_as_rel_file`
accepts it and stores it as a peer edge instead of failing with
`InvalidASRelFile`. -/
theorem C7_counterexample :
    parse_as_rel_file "as-rel.txt" ["1|2|5"] = .ok ⟨[1, 2], [(1, 2, none)]⟩ := rfl

/-- C7 amended: a non-comment line failing to split into exactly three
`|`-fields fails with `InvalidASRelFile(path, "bad line: ...")`; a 3-field
line whose fields all parse as Python ints (which accepts underscore digit
grouping and non-ASCII decimal digits) is accepted — any integer relation
code other than `-1` (whether `0` or not) yields a peer edge — and a 3-field
line with a field `int` rejects fails with the Python builtin `ValueError`,
not with `InvalidASRelFile`. -/
theorem C7_parse_line_behavior (filename line : String)
    (hc : startsWithHash line = false) :
    ((splitOnPipe line).length ≠ 3 →
      parse_as_rel_file filename [line] =
        .error (.invalidASRelFile filename ("bad line: " ++ line))) ∧
    (∀ (x y z : List Char) (a b rel : Int), splitOnPipe line = [x, y, z] →
      pyInt x = some a → pyInt y = some b → pyInt z = some rel →
      parse_as_rel_file filename [line] =
        .ok ((((⟨[], []⟩ : NxGraph).add_node a).add_node b).add_edge a b
          (if rel = -1 then some b else none))) ∧
    (∀ (x y z : List Char), splitOnPipe line = [x, y, z] →
      (pyInt x = none ∨ pyInt y = none ∨ pyInt z = none) →
      parse_as_rel_file filename [line] =
        .error (.valueError "invalid literal for int")) := by
  refine ⟨?_, ?_, ?_⟩
  · intro h3
    simp [parse_as_rel_file, parse_as_rel_file.go, hc, h3]
  · intro x y z a b rel hsplit hx hy hz
    simp [parse_as_rel_file, parse_as_rel_file.go, hc, hsplit, hx, hy, hz]
  · intro x y z hsplit hnone
    rcases hnone with h | h | h
    · simp [parse_as_rel_file, parse_as_rel_file.go, hc, hsplit, h]
    · rcases hpx : pyInt x with _ | a
      · simp [parse_as_rel_file, parse_as_rel_file.go, hc, hsplit, hpx]
      · simp [parse_as_rel_file, parse_as_rel_file.go, hc, hsplit, hpx, h]
    · rcases hpx : pyInt x with _ | a
      · simp [parse_as_rel_file, parse_as_rel_file.go, hc, hsplit, hpx]
      · rcases hpy : pyInt y with _ | b
        · simp [parse_as_rel_file, parse_as_rel_file.go, hc, hsplit, hpx, hpy]
        · simp [parse_as_rel_file, parse_as_rel_file.go, hc, hsplit, hpx, hpy, h]

theorem C7_parse_line_behavior_witness :
    parse_as_rel_file "as-rel.txt" ["1_0|٢|0"] =
      .ok ((((⟨[], []⟩ : NxGraph).add_node 10).add_node 2).add_edge 10 2
        (if (0 : Int) = -1 then some 2 else none)) :=
  (C7_parse_line_behavior "as-rel.txt" "1_0|٢|0" rfl).2.1
    ['1', '_', '0'] ['٢'] ['0'] 10 2 0 rfl rfl rfl rfl

/-! ### C1: the authenticated flag -/

theorem dlookup_mapValues {α β γ : Type} [DecidableEq α] (f : β → γ) (k : α) :
    ∀ l : List (α × β), dlookup k (l.map (fun p => (p.1, f p.2))) = (dlookup k l).map f := by
  intro l
  induction l with
  | nil => rfl
  | cons p t ih =>
    obtain ⟨a, b⟩ := p
    simp only [List.map_cons, dlookup]
    split
    · rfl
    · exact ih

theorem clear_get_asys (g : ASGraph) (id : AS_ID) :
    g.clear_routing_tables.get_asys id = (g.get_asys id).map AS.reset_routing_table :=
  dlookup_mapValues _ _ _

theorem clear_enabled (g : ASGraph) : g.clear_routing_tables.enabled = g.enabled := by
  funext id
  unfold ASGraph.enabled ASGraph.get_asys
  rw [show dlookup id g.clear_routing_tables.asyss =
      (dlookup id g.asyss).map AS.reset_routing_table from dlookup_mapValues _ _ _]
  cases dlookup id g.asyss <;> rfl

theorem headI_append_ne_nil {l m : List AS_ID} (h : l ≠ []) :
    (l ++ m).headI = l.headI := by
  cases l with
  | nil => exact absurd rfl h
  | cons a t => rfl

theorem drop_two_append {l : List AS_ID} (m : List AS_ID) (h : 2 ≤ l.length) :
    (l ++ m).drop 2 = l.drop 2 ++ m := by
  match l, h with
  | a :: b :: t, _ => rfl

/-- The table-wide form of the corrected authenticated-flag equation, with
the BGPsec flag assignment `E` frozen (flags do not change during
propagation): every installed route of length at least 2 has
`authenticated = E(path[0]) && E(path[2]) && ... && E(path[last])` — the
first hop `path[1]` is absent. -/
def AuthInv (E : AS_ID → Bool) (g : ASGraph) : Prop :=
  ∀ (id : AS_ID) (a : AS), g.get_asys id = some a →
    ∀ (d : AS_ID) (r : Route), (d, r) ∈ a.routing_table →
      2 ≤ r.path.length →
      r.authenticated = (E r.path.headI && (r.path.drop 2).all E)

/-- The corresponding queue-route invariant. -/
def RouteAuth (E : AS_ID → Bool) (r : Route) : Prop :=
  2 ≤ r.path.length ∧ r.authenticated = (E r.path.headI && (r.path.drop 2).all E)

theorem authInv_propagate (E : AS_ID → Bool) {g : ASGraph}
    (hg : AuthInv E g ∧ g.enabled = E) (fuel : Nat) (queue : List Route)
    (hq : ∀ r ∈ queue, RouteAuth E r) :
    AuthInv E (ASGraph.propagate g fuel queue) ∧
      (ASGraph.propagate g fuel queue).enabled = E := by
  refine ASGraph.propagate_preserves (fun G => AuthInv E G ∧ G.enabled = E)
    (RouteAuth E) ?_ ?_ fuel queue g hg hq
  · intro g fin asys r hG hr hfin hget
    constructor
    · intro id a hgets d s hds hlen
      by_cases hid : id = fin
      · subst hid
        have ha : a = (asys.learn_route r).1 := by
          have : (⟨dinsert id (asys.learn_route r).1 g.asyss⟩ : ASGraph).get_asys id =
              some (asys.learn_route r).1 := dlookup_dinsert_self id _ g.asyss
          rw [this] at hgets
          exact (Option.some.inj hgets).symm
        subst ha
        rcases learn_route_cases asys r with hcase | hcase
        · have he : (asys.learn_route r).1 = asys := congrArg Prod.fst hcase
          rw [he] at hds
          exact hG.1 id asys hget d s hds hlen
        · rw [hcase.1] at hds
          rcases mem_dinsert hds with hqe | hq0
          · have hs : s = r := congrArg Prod.snd hqe
            subst hs
            exact hr.2
          · exact hG.1 id asys hget d s hq0 hlen
      · have : (⟨dinsert fin (asys.learn_route r).1 g.asyss⟩ : ASGraph).get_asys id =
            g.get_asys id := dlookup_dinsert_ne _ hid g.asyss
        rw [this] at hgets
        exact hG.1 id a hgets d s hds hlen
    · funext id
      by_cases hid : id = fin
      · subst hid
        show (⟨dinsert id (asys.learn_route r).1 g.asyss⟩ : ASGraph).enabled id = E id
        unfold ASGraph.enabled
        rw [show (⟨dinsert id (asys.learn_route r).1 g.asyss⟩ : ASGraph).get_asys id =
            some (asys.learn_route r).1 from dlookup_dinsert_self id _ g.asyss]
        have hbg : (asys.learn_route r).1.bgp_sec_enabled = asys.bgp_sec_enabled :=
          (learn_route_fields asys r).2.2
        have hEg : g.enabled id = E id := congrFun hG.2 id
        unfold ASGraph.enabled at hEg
        rw [hget] at hEg
        simpa [hbg] using hEg
      · show (⟨dinsert fin (asys.learn_route r).1 g.asyss⟩ : ASGraph).enabled id = E id
        unfold ASGraph.enabled
        rw [show (⟨dinsert fin (asys.learn_route r).1 g.asyss⟩ : ASGraph).get_asys id =
            g.get_asys id from dlookup_dinsert_ne _ hid g.asyss]
        exact congrFun hG.2 id
  · intro g' r m hG' hr
    have hlen2 : 2 ≤ r.path.length := hr.1
    have hne : r.path ≠ [] := by
      intro h
      rw [h] at hlen2
      simp at hlen2
    constructor
    · show 2 ≤ (r.path ++ [m]).length
      rw [List.length_append]
      omega
    · show (r.authenticated && g'.enabled m) =
        (E ((r.path ++ [m]).headI) && ((r.path ++ [m]).drop 2).all E)
      rw [headI_append_ne_nil hne, drop_two_append [m] hlen2, List.all_append,
        hr.2, hG'.2]
      simp only [List.all_cons, List.all_nil, Bool.and_true, Bool.and_assoc]

/-- C1 counterexample: on the chain 1-2-3 with BGPsec enabled on 1 and 3 but
disabled on 2, the route to 1 installed at 3 still has
`authenticated = true`, although AS 2 lies on its path `[1, 2, 3]` with
BGPsec disabled — refuting both the iff characterization and the claimed
outcome of disabling BGPsec on 2 alone. -/
theorem C1_counterexample :
    ((chainTwoOff.find_routes_to 1 30).get_asys 3).bind (fun a => a.get_route 1) =
      some ⟨1, [1, 2, 3], false, false, true⟩ ∧
    chainTwoOff.enabled 2 = false ∧ (2 : AS_ID) ∈ [1, 2, 3] ∧
    chainTwoOff.enabled 1 = true ∧ chainTwoOff.enabled 3 = true :=
  ⟨rfl, rfl, by decide, rfl, rfl⟩

/-- C1 amended: for every route installed by `find_routes_to` on freshly
cleared tables (any route of path length at least 2 — self routes are the
length-1 ones), `authenticated` is true iff the origin and every AS from the
third path position on had BGPsec enabled; the first hop's (`path[1]`'s)
flag is not consulted. So on the chain scenario with all of 1, 2, 3 enabled
the route at 3 is authenticated, and disabling BGPsec on 2 alone leaves it
authenticated (only disabling 1 or 3 would flip it). -/
theorem C1_authenticated_flag {g : ASGraph} (hg : Reachable g)
    (target : AS_ID) (fuel : Nat) :
    ∀ (id d : AS_ID) (r : Route),
      ((g.clear_routing_tables.find_routes_to target fuel).get_asys id).bind
        (fun a => a.get_route d) = some r →
      2 ≤ r.path.length →
      r.authenticated = (g.enabled r.path.headI && (r.path.drop 2).all g.enabled) := by
  have hclear_inv : AuthInv g.enabled g.clear_routing_tables := by
    intro id a hgets d s hds hlen
    rw [clear_get_asys] at hgets
    cases hga : g.get_asys id with
    | none => rw [hga] at hgets; cases hgets
    | some a0 =>
      rw [hga] at hgets
      have ha : a = a0.reset_routing_table := (Option.some.inj hgets).symm
      subst ha
      simp only [AS.reset_routing_table, List.mem_singleton, Prod.mk.injEq] at hds
      obtain ⟨hd, hs⟩ := hds
      subst hs
      simp at hlen
  have hclear_en : g.clear_routing_tables.enabled = g.enabled := clear_enabled g
  unfold ASGraph.find_routes_to
  cases hgt : g.clear_routing_tables.get_asys target with
  | none =>
    intro id d r hbind hlen
    cases hga : g.clear_routing_tables.get_asys id with
    | none => rw [hga] at hbind; cases hbind
    | some a =>
      rw [hga] at hbind
      simp only [Option.some_bind] at hbind
      exact hclear_inv id a hga d r (dlookup_mem hbind) hlen
  | some t =>
    have htmem : (target, t) ∈ g.clear_routing_tables.asyss := dlookup_mem hgt
    have htid : t.as_id = target :=
      (reachable_stateInv (Reachable.clear hg) target t htmem).1
    have hten : g.enabled target = t.bgp_sec_enabled := by
      have h1 : g.clear_routing_tables.enabled target = g.enabled target :=
        congrFun hclear_en target
      rw [← h1]
      unfold ASGraph.enabled
      rw [hgt]
      rfl
    have hseeds : ∀ r ∈ t.neighbors.map (fun p => t.originate_route p.1),
        RouteAuth g.enabled r := by
      intro r hr
      rcases List.mem_map.mp hr with ⟨p, hp, hre⟩
      subst hre
      constructor
      · simp [AS.originate_route]
      · show t.bgp_sec_enabled =
          (g.enabled ([t.as_id, p.1].headI) && ([t.as_id, p.1].drop 2).all g.enabled)
        simp [htid, hten]
    have hmain := authInv_propagate g.enabled ⟨hclear_inv, hclear_en⟩ fuel _ hseeds
    intro id d r hbind hlen
    cases hga : (ASGraph.propagate g.clear_routing_tables fuel
        (t.neighbors.map (fun p => t.originate_route p.1))).get_asys id with
    | none => rw [hga] at hbind; cases hbind
    | some a =>
      rw [hga] at hbind
      simp only [Option.some_bind] at hbind
      exact hmain.1 id a hga d r (dlookup_mem hbind) hlen

theorem C1_authenticated_flag_witness :
    (Route.mk 1 [1, 2, 3] false false true).authenticated =
      (chainAllOn.enabled (Route.mk 1 [1, 2, 3] false false true).path.headI &&
       ((Route.mk 1 [1, 2, 3] false false true).path.drop 2).all chainAllOn.enabled) :=
  C1_authenticated_flag
    (Reachable.setsec 3 true (Reachable.setsec 2 true (Reachable.setsec 1 true
      (Reachable.init chainNx ⟨by decide, by decide, by decide, by decide⟩))))
    1 30 3 1 (Route.mk 1 [1, 2, 3] false false true) rfl (by decide)

/-! ### C8: neighbor-relation symmetry -/

/-- The relation that AS `a` records for AS `b`: `a.neighbors[b]`. -/
def ASGraph.rel (g : ASGraph) (a b : AS_ID) : Option Relation :=
  (g.get_asys a).bind (fun x => x.get_relation b)

theorem dlookup_updList {α β : Type} [DecidableEq α] (f : β → β) (x i : α) :
    ∀ l : List (α × β),
      dlookup i (l.map (fun p => if p.1 = x then (p.1, f p.2) else p)) =
        if i = x then (dlookup x l).map f else dlookup i l := by
  intro l
  induction l with
  | nil => by_cases h : i = x <;> simp [dlookup, h]
  | cons p t ih =>
    obtain ⟨a, b⟩ := p
    dsimp only [List.map_cons]
    by_cases hax : a = x
    · subst hax
      rw [if_pos rfl]
      by_cases hia : i = a
      · subst hia
        simp [dlookup]
      · have hai : ¬ a = i := fun h => hia h.symm
        simp [dlookup, hai, hia, ih]
    · rw [if_neg hax]
      by_cases hia : a = i
      · have hix : ¬ i = x := fun h => hax (hia.trans h)
        simp [dlookup, hia, hix]
      · simp [dlookup, hia, hax, ih]

theorem get_asys_updAS (g : ASGraph) (x : AS_ID) (f : AS → AS) (i : AS_ID) :
    (g.updAS x f).get_asys i =
      if i = x then (g.get_asys x).map f else g.get_asys i :=
  dlookup_updList f x i g.asyss

theorem dlookup_selfkey (h : AS_ID → AS) :
    ∀ (l : List AS_ID) (i : AS_ID),
      dlookup i (l.map (fun id => (id, h id))) =
        if i ∈ l then some (h i) else none := by
  intro l
  induction l with
  | nil => intro i; simp [dlookup]
  | cons a t ih =>
    intro i
    by_cases hai : a = i
    · subst hai
      simp [dlookup]
    · simp only [List.map_cons, dlookup, if_neg hai, ih]
      have hmem : (i ∈ a :: t) ↔ (i ∈ t) := by
        constructor
        · intro hm
          rcases List.mem_cons.mp hm with he | hm
          · exact absurd he.symm hai
          · exact hm
        · exact fun hm => List.mem_cons_of_mem _ hm
      by_cases hit : i ∈ t
      · rw [if_pos hit, if_pos (hmem.mpr hit)]
      · rw [if_neg hit, if_neg (fun hm => hit (hmem.mp hm))]

theorem rel_congr {g g' : ASGraph}
    (h : ∀ id, (g'.get_asys id).map AS.neighbors = (g.get_asys id).map AS.neighbors) :
    ∀ a b, g'.rel a b = g.rel a b := by
  intro a b
  unfold ASGraph.rel
  have ha := h a
  cases h1 : g'.get_asys a with
  | none =>
    cases h2 : g.get_asys a with
    | none => rfl
    | some y => rw [h1, h2] at ha; cases ha
  | some x =>
    cases h2 : g.get_asys a with
    | none => rw [h1, h2] at ha; cases ha
    | some y =>
      rw [h1, h2] at ha
      simp only [Option.map_some'] at ha
      have : x.neighbors = y.neighbors := Option.some.inj ha
      simp only [Option.some_bind]
      unfold AS.get_relation
      rw [this]

theorem propagate_neighbors (g0 : ASGraph) (fuel : Nat) (queue : List Route) :
    ∀ id, ((ASGraph.propagate g0 fuel queue).get_asys id).map AS.neighbors =
      (g0.get_asys id).map AS.neighbors := by
  intro id
  have h := ASGraph.propagate_skeleton g0 fuel queue id
  cases h1 : (ASGraph.propagate g0 fuel queue).get_asys id with
  | none =>
    cases h2 : g0.get_asys id with
    | none => rfl
    | some b => rw [h1, h2] at h; cases h
  | some a =>
    cases h2 : g0.get_asys id with
    | none => rw [h1, h2] at h; cases h
    | some b =>
      rw [h1, h2] at h
      simp only [Option.map_some'] at h ⊢
      have hab := Option.some.inj h
      exact congrArg some (congrArg (fun t => t.2.1) hab)

/-- The mirrored-relation property for distinct ASes. -/
def Mirror (g : ASGraph) : Prop :=
  ∀ a b : AS_ID, a ≠ b →
    (g.rel a b = some Relation.customer ↔ g.rel b a = some Relation.provider) ∧
    (g.rel a b = some Relation.peer ↔ g.rel b a = some Relation.peer)

theorem rel_updAS_dinsert (G : ASGraph) (a t : AS_ID) (rl : Relation)
    (u v : AS_ID) (hneq : ¬ (u = a ∧ v = t)) :
    (G.updAS a (fun x => { x with neighbors := dinsert t rl x.neighbors })).rel u v =
      G.rel u v := by
  unfold ASGraph.rel
  rw [get_asys_updAS]
  by_cases hu : u = a
  · subst hu
    simp only [if_pos rfl]
    cases hx : G.get_asys u with
    | none => rfl
    | some x =>
      simp only [Option.map_some', Option.some_bind]
      unfold AS.get_relation
      have hvt : v ≠ t := fun h => hneq ⟨rfl, h⟩
      exact dlookup_dinsert_ne rl hvt x.neighbors
  · simp [hu]

theorem rel_updAS_dinsert_self (G : ASGraph) (a t : AS_ID) (rl : Relation)
    {x : AS} (hsome : G.get_asys a = some x) :
    (G.updAS a (fun y => { y with neighbors := dinsert t rl y.neighbors })).rel a t =
      some rl := by
  unfold ASGraph.rel
  rw [get_asys_updAS, if_pos rfl, hsome]
  simp only [Option.map_some', Option.some_bind]
  unfold AS.get_relation
  exact dlookup_dinsert_self t rl x.neighbors

theorem dom_updAS (G : ASGraph) (x : AS_ID) (f : AS → AS) (i : AS_ID) :
    ((G.updAS x f).get_asys i).isSome = (G.get_asys i).isSome := by
  rw [get_asys_updAS]
  by_cases h : i = x
  · subst h
    rw [if_pos rfl]
    cases G.get_asys i <;> rfl
  · rw [if_neg h]

/-- Installing a mirrored relation pair on the two endpoints of an edge
preserves the `Mirror` property (and the key domain), including for
self-loop edges. -/
theorem mirror_dom_set_edge {G : ASGraph} {nodes : List AS_ID}
    (hm : Mirror G) (hd : ∀ i, ((G.get_asys i).isSome = true) ↔ i ∈ nodes)
    (a1 a2 : AS_ID) (h1 : a1 ∈ nodes) (h2 : a2 ∈ nodes)
    (r12 r21 : Relation)
    (hc1 : r12 = Relation.customer ↔ r21 = Relation.provider)
    (hc2 : r21 = Relation.customer ↔ r12 = Relation.provider)
    (hc3 : r12 = Relation.peer ↔ r21 = Relation.peer) :
    Mirror ((G.updAS a1 (fun x => { x with neighbors := dinsert a2 r12 x.neighbors })).updAS
        a2 (fun x => { x with neighbors := dinsert a1 r21 x.neighbors })) ∧
    (∀ i, ((((G.updAS a1 (fun x => { x with neighbors := dinsert a2 r12 x.neighbors })).updAS
        a2 (fun x => { x with neighbors := dinsert a1 r21 x.neighbors })).get_asys i).isSome
        = true) ↔ i ∈ nodes) := by
  constructor
  · by_cases h12 : a1 = a2
    · subst h12
      intro u v huv
      have hp1 : ¬ (u = a1 ∧ v = a1) := fun h => huv (h.1.trans h.2.symm)
      have hp2 : ¬ (v = a1 ∧ u = a1) := fun h => huv (h.2.trans h.1.symm)
      rw [rel_updAS_dinsert _ _ _ _ _ _ hp1, rel_updAS_dinsert _ _ _ _ _ _ hp1,
        rel_updAS_dinsert _ _ _ _ _ _ hp2, rel_updAS_dinsert _ _ _ _ _ _ hp2]
      exact hm u v huv
    · obtain ⟨x1, hx1⟩ := Option.isSome_iff_exists.mp (by
        have := (hd a1).mpr h1
        exact this)
      obtain ⟨x2, hx2⟩ := Option.isSome_iff_exists.mp (by
        have := (hd a2).mpr h2
        exact this)
      have hg1 : (G.updAS a1 (fun x =>
          { x with neighbors := dinsert a2 r12 x.neighbors })).get_asys a2 =
          G.get_asys a2 := by
        rw [get_asys_updAS, if_neg (fun h => h12 h.symm)]
      have hne1 : ¬ (a1 = a2 ∧ a2 = a1) := fun h => h12 h.1
      have hrelA : ((G.updAS a1 (fun x =>
          { x with neighbors := dinsert a2 r12 x.neighbors })).updAS
          a2 (fun x => { x with neighbors := dinsert a1 r21 x.neighbors })).rel a1 a2 =
          some r12 := by
        rw [rel_updAS_dinsert _ _ _ _ _ _ hne1]
        exact rel_updAS_dinsert_self G a1 a2 r12 hx1
      have hrelB : ((G.updAS a1 (fun x =>
          { x with neighbors := dinsert a2 r12 x.neighbors })).updAS
          a2 (fun x => { x with neighbors := dinsert a1 r21 x.neighbors })).rel a2 a1 =
          some r21 := by
        exact rel_updAS_dinsert_self _ a2 a1 r21 (hg1.trans hx2)
      intro u v huv
      by_cases hA : u = a1 ∧ v = a2
      · obtain ⟨hu, hv⟩ := hA
        subst hu
        subst hv
        rw [hrelA, hrelB]
        constructor
        · constructor
          · intro h
            exact (congrArg some (hc1.mp (Option.some.inj h))).symm ▸ rfl
          · intro h
            exact congrArg some (hc1.mpr (Option.some.inj h))
        · constructor
          · intro h
            exact congrArg some (hc3.mp (Option.some.inj h))
          · intro h
            exact congrArg some (hc3.mpr (Option.some.inj h))
      · by_cases hB : u = a2 ∧ v = a1
        · obtain ⟨hu, hv⟩ := hB
          subst hu
          subst hv
          rw [hrelA, hrelB]
          constructor
          · constructor
            · intro h
              exact congrArg some (hc2.mp (Option.some.inj h))
            · intro h
              exact congrArg some (hc2.mpr (Option.some.inj h))
          · constructor
            · intro h
              exact congrArg some (hc3.symm.mp (Option.some.inj h))
            · intro h
              exact congrArg some (hc3.symm.mpr (Option.some.inj h))
        · have hp1 : ¬ (u = a2 ∧ v = a1) := hB
          have hp2 : ¬ (u = a1 ∧ v = a2) := hA
          have hq1 : ¬ (v = a2 ∧ u = a1) := fun h => hA ⟨h.2, h.1⟩
          have hq2 : ¬ (v = a1 ∧ u = a2) := fun h => hB ⟨h.2, h.1⟩
          rw [rel_updAS_dinsert _ _ _ _ _ _ hp1, rel_updAS_dinsert _ _ _ _ _ _ hp2,
            rel_updAS_dinsert _ _ _ _ _ _ hq1, rel_updAS_dinsert _ _ _ _ _ _ hq2]
          exact hm u v huv
  · intro i
    rw [dom_updAS, dom_updAS]
    exact hd i

/-- A freshly built graph of ASes with empty neighbor maps relates nothing. -/
theorem rel_selfTables (l : List AS_ID) (a b : AS_ID) :
    (⟨l.map (fun id =>
      (id, AS.reset_routing_table ⟨id, [], false, false, false, []⟩))⟩ : ASGraph).rel a b =
      none := by
  unfold ASGraph.rel ASGraph.get_asys
  rw [show (⟨l.map (fun id =>
      (id, AS.reset_routing_table ⟨id, [], false, false, false, []⟩))⟩ : ASGraph).asyss =
      l.map (fun id => (id, AS.reset_routing_table ⟨id, [], false, false, false, []⟩))
      from rfl]
  rw [dlookup_selfkey]
  by_cases h : a ∈ l
  · rw [if_pos h]
    rfl
  · rw [if_neg h]
    rfl

theorem mirror_ofNx (nxg : NxGraph) (hwf : nxg.WF) : Mirror (ASGraph.ofNx nxg) := by
  have hdom0 : ∀ i, (((⟨nxg.nodes.map (fun id =>
      (id, AS.reset_routing_table ⟨id, [], false, false, false, []⟩))⟩ : ASGraph).get_asys
      i).isSome = true) ↔ i ∈ nxg.nodes := by
    intro i
    unfold ASGraph.get_asys
    rw [show (⟨nxg.nodes.map (fun id =>
        (id, AS.reset_routing_table ⟨id, [], false, false, false, []⟩))⟩ : ASGraph).asyss =
        nxg.nodes.map (fun id => (id, AS.reset_routing_table ⟨id, [], false, false, false, []⟩))
        from rfl]
    rw [dlookup_selfkey]
    by_cases h : i ∈ nxg.nodes <;> simp [h]
  have hm0 : Mirror ⟨nxg.nodes.map (fun id =>
      (id, AS.reset_routing_table ⟨id, [], false, false, false, []⟩))⟩ := by
    intro a b hab
    rw [rel_selfTables, rel_selfTables]
    constructor <;> constructor <;> intro h <;> cases h
  have hstep : ∀ (G : ASGraph) (e : AS_ID × AS_ID × Option AS_ID),
      e.1 ∈ nxg.nodes → e.2.1 ∈ nxg.nodes →
      Mirror G → (∀ i, ((G.get_asys i).isSome = true) ↔ i ∈ nxg.nodes) →
      (Mirror ((fun (g : ASGraph) (e : AS_ID × AS_ID × Option AS_ID) =>
        match e.2.2 with
        | none => (g.updAS e.1 (·.add_peer e.2.1)).updAS e.2.1 (·.add_peer e.1)
        | some c =>
          if c = e.1 then
            (g.updAS e.1 (·.add_provider e.2.1)).updAS e.2.1 (·.add_customer e.1)
          else if c = e.2.1 then
            (g.updAS e.1 (·.add_customer e.2.1)).updAS e.2.1 (·.add_provider e.1)
          else g) G e) ∧
      (∀ i, ((((fun (g : ASGraph) (e : AS_ID × AS_ID × Option AS_ID) =>
        match e.2.2 with
        | none => (g.updAS e.1 (·.add_peer e.2.1)).updAS e.2.1 (·.add_peer e.1)
        | some c =>
          if c = e.1 then
            (g.updAS e.1 (·.add_provider e.2.1)).updAS e.2.1 (·.add_customer e.1)
          else if c = e.2.1 then
            (g.updAS e.1 (·.add_customer e.2.1)).updAS e.2.1 (·.add_provider e.1)
          else g) G e).get_asys i).isSome = true) ↔ i ∈ nxg.nodes)) := by
    intro G e he1 he2 hm hd
    obtain ⟨a1, a2, c⟩ := e
    cases c with
    | none =>
      exact mirror_dom_set_edge hm hd a1 a2 he1 he2 Relation.peer Relation.peer
        (by constructor <;> intro h <;> cases h)
        (by constructor <;> intro h <;> cases h)
        Iff.rfl
    | some cv =>
      dsimp only
      split
      · exact mirror_dom_set_edge hm hd a1 a2 he1 he2 Relation.provider Relation.customer
          (by constructor <;> intro h <;> cases h)
          (by constructor <;> intro h <;> rfl)
          (by constructor <;> intro h <;> cases h)
      · split
        · exact mirror_dom_set_edge hm hd a1 a2 he1 he2 Relation.customer Relation.provider
            (by constructor <;> intro h <;> rfl)
            (by constructor <;> intro h <;> cases h)
            (by constructor <;> intro h <;> cases h)
        · exact ⟨hm, hd⟩
  have hgen : ∀ (es : List (AS_ID × AS_ID × Option AS_ID)),
      (∀ e ∈ es, e.1 ∈ nxg.nodes ∧ e.2.1 ∈ nxg.nodes) →
      ∀ G : ASGraph, Mirror G → (∀ i, ((G.get_asys i).isSome = true) ↔ i ∈ nxg.nodes) →
      Mirror (es.foldl (fun (g : ASGraph) (e : AS_ID × AS_ID × Option AS_ID) =>
        match e.2.2 with
        | none => (g.updAS e.1 (·.add_peer e.2.1)).updAS e.2.1 (·.add_peer e.1)
        | some c =>
          if c = e.1 then
            (g.updAS e.1 (·.add_provider e.2.1)).updAS e.2.1 (·.add_customer e.1)
          else if c = e.2.1 then
            (g.updAS e.1 (·.add_customer e.2.1)).updAS e.2.1 (·.add_provider e.1)
          else g) G) := by
    intro es
    induction es with
    | nil =>
      intro _ G hm _
      simpa using hm
    | cons e t ih =>
      intro hmem G hm hd
      simp only [List.foldl_cons]
      have hst := hstep G e (hmem e (List.mem_cons_self e t)).1
        (hmem e (List.mem_cons_self e t)).2 hm hd
      exact ih (fun e' he' => hmem e' (List.mem_cons_of_mem _ he')) _ hst.1 hst.2
  have hedges : ∀ e ∈ nxg.edges, e.1 ∈ nxg.nodes ∧ e.2.1 ∈ nxg.nodes :=
    fun e he => ⟨hwf.edgeFst e he, hwf.edgeSnd e he⟩
  exact hgen nxg.edges hedges _ hm0 hdom0

theorem reachable_mirror : ∀ {g : ASGraph}, Reachable g → Mirror g := by
  intro g hg
  induction hg with
  | init nxg hwf => exact mirror_ofNx nxg hwf
  | clear hr ih =>
    rename_i g0
    intro a b hab
    have hpres : ∀ id, (g0.clear_routing_tables.get_asys id).map AS.neighbors =
        (g0.get_asys id).map AS.neighbors := by
      intro id
      rw [clear_get_asys]
      cases g0.get_asys id <;> rfl
    rw [rel_congr hpres, rel_congr hpres]
    exact ih a b hab
  | find target fuel hr ih =>
    rename_i g0
    unfold ASGraph.find_routes_to
    cases hget : g0.get_asys target with
    | none => exact ih
    | some t =>
      intro a b hab
      rw [rel_congr (propagate_neighbors g0 fuel _),
        rel_congr (propagate_neighbors g0 fuel _)]
      exact ih a b hab
  | hijack victim attacker n middle fuel hr hok ih =>
    rename_i g0 g1
    unfold ASGraph.hijack_n_hops at hok
    split at hok
    · cases hok
    · split at hok
      · cases hok
      · revert hok
        cases hget : g0.get_asys attacker with
        | none =>
          intro hok
          cases hok
          exact ih
        | some att =>
          intro hok
          cases hok
          intro a b hab
          rw [rel_congr (propagate_neighbors g0 fuel _),
            rel_congr (propagate_neighbors g0 fuel _)]
          exact ih a b hab
  | setsec id b hr ih =>
    rename_i g0
    intro a c hac
    have hpres : ∀ i, ((g0.setBgpSec id b).get_asys i).map AS.neighbors =
        (g0.get_asys i).map AS.neighbors := by
      intro i
      unfold ASGraph.setBgpSec
      rw [get_asys_updAS]
      by_cases hi : i = id
      · subst hi
        cases g0.get_asys i <;> simp
      · rw [if_neg hi]
    rw [rel_congr hpres, rel_congr hpres]
    exact ih a c hac

/-- C8 counterexample: a self-loop provider edge (the well-formed networkx
graph produced by the as-rel line `5|5|-1`). Construction runs
`add_provider` then `add_customer` on the same AS object, the second
overwriting the first in the single `neighbors` dict, so with `a = b = 5`:
`a.neighbors[b] = CUSTOMER` while `b.neighbors[a]` — the same entry — is
`CUSTOMER`, not `PROVIDER`, falsifying the claimed iff for all ASes `a`, `b`. -/
theorem C8_counterexample :
    (ASGraph.ofNx ⟨[5], [(5, 5, some 5)]⟩).rel 5 5 = some Relation.customer ∧
    ¬ (ASGraph.ofNx ⟨[5], [(5, 5, some 5)]⟩).rel 5 5 = some Relation.provider :=
  ⟨rfl, by decide⟩

/-- C8 amended: for distinct ASes `a ≠ b`, in the freshly constructed graph
and in every state reachable by the public operations (which never mutate
neighbor links), `a.neighbors[b] = CUSTOMER` iff `b.neighbors[a] = PROVIDER`
and `a.neighbors[b] = PEER` iff `b.neighbors[a] = PEER`. (For `a = b` — a
self-loop edge — the two constructor writes land on the same dict entry and
the mirror property can fail, as the counterexample shows.) -/
theorem C8_neighbor_symmetry {g : ASGraph} (hg : Reachable g) :
    ∀ a b : AS_ID, a ≠ b →
      (g.rel a b = some Relation.customer ↔ g.rel b a = some Relation.provider) ∧
      (g.rel a b = some Relation.peer ↔ g.rel b a = some Relation.peer) :=
  fun a b hab => reachable_mirror hg a b hab

theorem C8_neighbor_symmetry_witness :
    ((chainGraph.rel 2 1 = some Relation.customer ↔
        chainGraph.rel 1 2 = some Relation.provider) ∧
      (chainGraph.rel 2 1 = some Relation.peer ↔
        chainGraph.rel 1 2 = some Relation.peer)) ∧
    chainGraph.rel 2 1 = some Relation.customer :=
  ⟨C8_neighbor_symmetry
      (Reachable.init chainNx ⟨by decide, by decide, by decide, by decide⟩)
      2 1 (by decide),
    rfl⟩

/-! ### C9: hijack hop count -/

/-- Extract the graph of a successful call (used only to state concrete
counterexamples without naming the whole result graph). -/
def okOr (e : Except Err ASGraph) (d : ASGraph) : ASGraph :=
  match e with
  | .ok g => g
  | .error _ => d

/-- C9 counterexample: on the chain 1-2-3 (plus spare ASes 4, 5), running
`find_routes_to(1)` first installs the legitimate route `[1, 2, 3]` at AS 3;
a subsequent `hijack_n_hops(1, 2, 3)` (middle sample `[4, 5]`, a legitimate
`random.sample` outcome) does not displace it — the forged route is longer —
so after the hijack AS 3's entry for destination 1 contains the attacker 2
but has path length 3 < n + 1 = 4. -/
theorem C9_counterexample :
    (((okOr (((ASGraph.ofNx hijackNx).find_routes_to 1 30).hijack_n_hops 1 2 3 [4, 5] 30)
        ⟨[]⟩).get_asys 3).bind (fun a => a.get_route 1)) =
      some ⟨1, [1, 2, 3], false, false, false⟩ ∧
    ((((ASGraph.ofNx hijackNx).find_routes_to 1 30).hijack_n_hops
        1 2 3 [4, 5] 30).isOk = true) ∧
    (2 : AS_ID) ∈ [(1 : AS_ID), 2, 3] ∧
    ¬ ((3 + 1 : Int) ≤ (([(1 : AS_ID), 2, 3] : List AS_ID).length : Int)) ∧
    ([(4 : AS_ID), 5] : List AS_ID).Nodup ∧
    (4 : AS_ID) ∈ ((ASGraph.ofNx hijackNx).find_routes_to 1 30).hijack_candidates 1 2 ∧
    (5 : AS_ID) ∈ ((ASGraph.ofNx hijackNx).find_routes_to 1 30).hijack_candidates 1 2 ∧
    (([(4 : AS_ID), 5] : List AS_ID).length : Int) = 3 - 1 :=
  ⟨rfl, rfl, by decide, by decide, by decide, by decide, by decide, by decide⟩

/-- C9 amended: when the routing tables are freshly cleared before the
hijack, and `victim ≠ attacker`, after a successful
`hijack_n_hops(victim, attacker, n)` with `n ≥ 1` (the middle sample having
its contractual length `n - 1`), every AS whose routing-table entry for
`victim.id` has `attacker ∈ path` has path length at least `n + 1`. -/
theorem C9_hijack_min_length {g : ASGraph} (victim attacker : AS_ID) (n : Int)
    (middle : List AS_ID) (fuel : Nat) (g' : ASGraph)
    (hva : victim ≠ attacker) (hn : 1 ≤ n)
    (hlen : 2 ≤ n → (middle.length : Int) = n - 1)
    (hok : g.clear_routing_tables.hijack_n_hops victim attacker n middle fuel = .ok g') :
    ∀ (id : AS_ID) (a : AS), (id, a) ∈ g'.asyss →
      ∀ r : Route, (victim, r) ∈ a.routing_table →
        attacker ∈ r.path → (n + 1 : Int) ≤ (r.path.length : Int) := by
  have hGp0 : ∀ (id : AS_ID) (a : AS), (id, a) ∈ g.clear_routing_tables.asyss →
      ∀ r : Route, (victim, r) ∈ a.routing_table →
        attacker ∈ r.path → (n + 1 : Int) ≤ (r.path.length : Int) := by
    intro id a hp r hq hatt
    rcases List.mem_map.mp hp with ⟨⟨id0, a0⟩, hp0, hpe⟩
    have ha : a = a0.reset_routing_table := (congrArg Prod.snd hpe).symm
    subst ha
    simp only [AS.reset_routing_table, List.mem_singleton, Prod.mk.injEq] at hq
    obtain ⟨hd, hr⟩ := hq
    subst hr
    simp only [List.mem_singleton] at hatt
    exact absurd (hd.trans hatt.symm) hva
  unfold ASGraph.hijack_n_hops at hok
  split at hok
  · cases hok
  · split at hok
    · cases hok
    · revert hok
      cases hget : g.clear_routing_tables.get_asys attacker with
      | none =>
        intro hok
        cases hok
        exact hGp0
      | some att =>
        intro hok
        cases hok
        have hbadlen : (n + 1 : Int) =
            ((ASGraph.hijack_path victim attacker n middle).length : Int) := by
          unfold ASGraph.hijack_path
          by_cases h0 : n = 0
          · omega
          · rw [if_neg h0]
            by_cases h1 : n = 1
            · rw [if_pos h1]
              simp [h1]
            · rw [if_neg h1]
              have h2 : 2 ≤ n := by omega
              have := hlen h2
              simp only [List.length_append, List.length_cons, List.length_nil,
                List.length_singleton]
              push_cast
              omega
        refine ASGraph.propagate_preserves
          (fun G => ∀ (id : AS_ID) (a : AS), (id, a) ∈ G.asyss →
            ∀ r : Route, (victim, r) ∈ a.routing_table →
              attacker ∈ r.path → (n + 1 : Int) ≤ (r.path.length : Int))
          (fun r => r.dest = victim ∧ (n + 2 : Int) ≤ (r.path.length : Int))
          ?_ ?_ fuel _ _ hGp0 ?_
        · intro G fin asys r hG hr hfin hgets
          intro id a hp s hq hatt
          rcases mem_dinsert hp with hpe | hp0
          · have ha : a = (asys.learn_route r).1 := congrArg Prod.snd hpe
            subst ha
            rcases learn_route_cases asys r with hcase | hcase
            · have h1 : (asys.learn_route r).1 = asys := congrArg Prod.fst hcase
              rw [h1] at hq
              exact hG fin asys (dlookup_mem hgets) s hq hatt
            · rw [hcase.1] at hq
              rcases mem_dinsert hq with hqe | hq0
              · have hs : s = r := congrArg Prod.snd hqe
                subst hs
                have := hr.2
                omega
              · exact hG fin asys (dlookup_mem hgets) s hq0 hatt
          · exact hG id a hp0 s hq hatt
        · intro g'' r m hG hr
          refine ⟨hr.1, ?_⟩
          have := hr.2
          unfold ASGraph.forward_route
          simp only [List.length_append, List.length_singleton]
          push_cast
          omega
        · intro r hr
          rcases List.mem_map.mp hr with ⟨p, hp, hre⟩
          subst hre
          constructor
          · rfl
          · unfold ASGraph.forward_route ASGraph.hijack_route
            simp only [List.length_append, List.length_singleton]
            push_cast
            omega

/-! ### C5 stage A: iterated growth computes reflexive-transitive reachability -/

section ReachSet

variable {ν : Type} [DecidableEq ν]

theorem subset_growStep (succ : ν → Finset ν) (S : Finset ν) : S ⊆ growStep succ S :=
  Finset.subset_union_left

theorem growStep_mono (succ : ν → Finset ν) {S T : Finset ν} (h : S ⊆ T) :
    growStep succ S ⊆ growStep succ T := by
  unfold growStep
  intro y hy
  rcases Finset.mem_union.mp hy with hy | hy
  · exact Finset.mem_union_left _ (h hy)
  · rcases Finset.mem_biUnion.mp hy with ⟨z, hz, hyz⟩
    exact Finset.mem_union_right _ (Finset.mem_biUnion.mpr ⟨z, h hz, hyz⟩)

theorem iterate_growStep_succ_subset (succ : ν → Finset ν) (S : Finset ν) :
    ∀ n : Nat, (growStep succ)^[n] S ⊆ (growStep succ)^[n + 1] S := by
  intro n
  induction n generalizing S with
  | zero => exact subset_growStep succ S
  | succ n ih =>
    rw [Function.iterate_succ_apply, Function.iterate_succ_apply]
    exact ih (growStep succ S)

theorem iterate_growStep_mono_n (succ : ν → Finset ν) (S : Finset ν) :
    ∀ {m n : Nat}, m ≤ n → (growStep succ)^[m] S ⊆ (growStep succ)^[n] S := by
  intro m n hmn
  induction hmn with
  | refl => exact fun _ h => h
  | step h ih => exact fun y hy => iterate_growStep_succ_subset succ S _ (ih hy)

theorem iterate_growStep_subset_univ (succ : ν → Finset ν) (U : Finset ν)
    (hsucc : ∀ y, succ y ⊆ U) (x : ν) :
    ∀ n : Nat, (growStep succ)^[n] {x} ⊆ insert x U := by
  intro n
  induction n with
  | zero => simp
  | succ n ih =>
    rw [Function.iterate_succ_apply']
    unfold growStep
    intro y hy
    rcases Finset.mem_union.mp hy with hy | hy
    · exact ih hy
    · rcases Finset.mem_biUnion.mp hy with ⟨z, _, hyz⟩
      exact Finset.mem_insert_of_mem (hsucc z hyz)

theorem iterate_growStep_sound (succ : ν → Finset ν) (x : ν) :
    ∀ (n : Nat) (y : ν), y ∈ (growStep succ)^[n] {x} →
      Relation.ReflTransGen (fun a b => b ∈ succ a) x y := by
  intro n
  induction n with
  | zero =>
    intro y hy
    simp only [Function.iterate_zero_apply, Finset.mem_singleton] at hy
    subst hy
    exact Relation.ReflTransGen.refl
  | succ n ih =>
    intro y hy
    rw [Function.iterate_succ_apply'] at hy
    rcases Finset.mem_union.mp hy with hy | hy
    · exact ih y hy
    · rcases Finset.mem_biUnion.mp hy with ⟨z, hz, hyz⟩
      exact Relation.ReflTransGen.tail (ih z hz) hyz

theorem iterate_growStep_fix_after {f : Finset ν → Finset ν} {S : Finset ν} {k : Nat}
    (hfix : f (f^[k] S) = f^[k] S) : ∀ m : Nat, k ≤ m → f^[m] S = f^[k] S := by
  intro m hkm
  induction hkm with
  | refl => rfl
  | step h ih =>
    rename_i j _
    rw [Function.iterate_succ_apply', ih, hfix]

theorem growStep_fixed_at_bound (succ : ν → Finset ν) (U : Finset ν)
    (hsucc : ∀ y, succ y ⊆ U) (x : ν) :
    ∃ k ≤ U.card, growStep succ ((growStep succ)^[k] {x}) = (growStep succ)^[k] {x} := by
  by_contra hcon
  push_neg at hcon
  have hstrict : ∀ k ≤ U.card, (growStep succ)^[k] {x} ⊂ (growStep succ)^[k + 1] {x} := by
    intro k hk
    refine Finset.ssubset_iff_subset_ne.mpr ⟨iterate_growStep_succ_subset succ {x} k, ?_⟩
    intro heq
    apply hcon k hk
    calc growStep succ ((growStep succ)^[k] {x})
        = (growStep succ)^[k + 1] {x} := (Function.iterate_succ_apply' _ _ _).symm
      _ = (growStep succ)^[k] {x} := heq.symm
  have hcard : ∀ k, k ≤ U.card + 1 → k + 1 ≤ ((growStep succ)^[k] {x}).card := by
    intro k
    induction k with
    | zero => intro _; simp
    | succ k ih =>
      intro hk
      have h1 := ih (by omega)
      have h2 := Finset.card_lt_card (hstrict k (by omega))
      omega
  have hle : ((growStep succ)^[U.card + 1] {x}).card ≤ (insert x U).card :=
    Finset.card_le_card (iterate_growStep_subset_univ succ U hsucc x (U.card + 1))
  have hins : (insert x U).card ≤ U.card + 1 := Finset.card_insert_le x U
  have := hcard (U.card + 1) le_rfl
  omega

theorem iterate_growStep_complete (succ : ν → Finset ν) (U : Finset ν)
    (hsucc : ∀ y, succ y ⊆ U) (x : ν) {b : Nat} (hb : U.card + 1 ≤ b) :
    ∀ y : ν, Relation.ReflTransGen (fun a b => b ∈ succ a) x y →
      y ∈ (growStep succ)^[b] {x} := by
  obtain ⟨k, hk, hfix⟩ := growStep_fixed_at_bound succ U hsucc x
  have hbk : (growStep succ)^[b] {x} = (growStep succ)^[k] {x} :=
    iterate_growStep_fix_after hfix b (by omega)
  intro y hy
  rw [hbk]
  induction hy with
  | refl =>
    exact iterate_growStep_mono_n succ {x} (Nat.zero_le k) (Finset.mem_singleton_self x)
  | @tail z w hxz hstep ih =>
    have hz := ih
    have hw : w ∈ growStep succ ((growStep succ)^[k] {x}) :=
      Finset.mem_union_right _ (Finset.mem_biUnion.mpr ⟨z, hz, hstep⟩)
    rwa [hfix] at hw

/-- The computed `reachSet` is exactly reflexive-transitive reachability,
provided the bound is at least one more than the size of a universe closed
under successors. -/
theorem mem_reachSet_iff (succ : ν → Finset ν) (U : Finset ν)
    (hsucc : ∀ y, succ y ⊆ U) {b : Nat} (hb : U.card + 1 ≤ b) (x y : ν) :
    y ∈ reachSet succ b x ↔ Relation.ReflTransGen (fun a b => b ∈ succ a) x y := by
  constructor
  · exact iterate_growStep_sound succ x b y
  · exact iterate_growStep_complete succ U hsucc x hb y

end ReachSet

/-! ### C5 stage B: bitfields as finite sets of bit positions -/

/-- The set of set-bit positions of a bitfield. -/
def natBits (n : Nat) : Finset Nat := (Finset.range n).filter (n.testBit ·)

theorem mem_natBits {n t : Nat} : t ∈ natBits n ↔ n.testBit t = true := by
  unfold natBits
  rw [Finset.mem_filter, Finset.mem_range]
  constructor
  · exact fun h => h.2
  · intro h
    refine ⟨?_, h⟩
    have h1 : 2 ^ t ≤ n := Nat.testBit_implies_ge h
    have h2 : t < 2 ^ t := Nat.lt_two_pow t
    omega

theorem natBits_zero : natBits 0 = ∅ := rfl

theorem natBits_lor (a b : Nat) : natBits (a ||| b) = natBits a ∪ natBits b := by
  ext t
  rw [Finset.mem_union, mem_natBits, mem_natBits, mem_natBits, Nat.testBit_or,
    Bool.or_eq_true]

theorem natBits_one_shiftLeft (k : Nat) : natBits (1 <<< k) = {k} := by
  ext t
  rw [mem_natBits, Finset.mem_singleton, Nat.one_shiftLeft, Nat.testBit_two_pow]
  simp [eq_comm]

theorem natBits_succ (n : Nat) :
    natBits n = (natBits (n / 2)).image (· + 1) ∪
      (if n % 2 = 1 then ({0} : Finset Nat) else ∅) := by
  ext t
  cases t with
  | zero =>
    rw [Finset.mem_union, mem_natBits, Nat.testBit_zero]
    constructor
    · intro h
      simp only [decide_eq_true_eq] at h
      simp [h]
    · intro h
      rcases Finset.mem_union.mp (Finset.mem_union.mpr h) with h | h
      · rcases Finset.mem_image.mp h with ⟨u, _, hu⟩
        omega
      · by_cases hm : n % 2 = 1
        · simp [hm]
        · rw [if_neg hm] at h
          cases h
  | succ t =>
    rw [Finset.mem_union, mem_natBits, Nat.testBit_add_one]
    constructor
    · intro h
      exact Or.inl (Finset.mem_image.mpr ⟨t, mem_natBits.mpr h, rfl⟩)
    · intro h
      rcases h with h | h
      · rcases Finset.mem_image.mp h with ⟨u, hu, huv⟩
        have : u = t := by omega
        subst this
        exact mem_natBits.mp hu
      · by_cases hm : n % 2 = 1
        · rw [if_pos hm] at h
          simp at h
        · rw [if_neg hm] at h
          cases h

theorem bit_count_card : ∀ n : Nat, bit_count n = (natBits n).card := by
  intro n
  induction n using Nat.strong_induction_on with
  | _ n ih =>
    rw [bit_count_eq]
    by_cases h0 : n = 0
    · subst h0
      simp [natBits_zero]
    · rw [if_neg h0]
      have hlt : n / 2 < n := Nat.div_lt_self (Nat.pos_of_ne_zero h0) Nat.one_lt_two
      rw [ih (n / 2) hlt]
      rw [natBits_succ n]
      have hdisj : Disjoint ((natBits (n / 2)).image (· + 1))
          (if n % 2 = 1 then ({0} : Finset Nat) else ∅) := by
        by_cases hm : n % 2 = 1
        · rw [if_pos hm]
          rw [Finset.disjoint_singleton_right]
          intro h
          rcases Finset.mem_image.mp h with ⟨u, _, hu⟩
          omega
        · rw [if_neg hm]
          exact Finset.disjoint_empty_right _
      rw [Finset.card_union_of_disjoint hdisj]
      rw [Finset.card_image_of_injective _ (fun a b h => by omega)]
      by_cases hm : n % 2 = 1
      · rw [if_pos hm, hm]
        simp [Nat.add_comm]
      · rw [if_neg hm]
        have : n % 2 = 0 := by omega
        rw [this]
        simp

/-! ### C5 stage C: structure of the auxiliary reachability graph -/

theorem mem_dedupKeepFirst {α : Type} [DecidableEq α] {x : α} :
    ∀ {l : List α}, x ∈ dedupKeepFirst l ↔ x ∈ l := by
  intro l
  induction l with
  | nil => simp [dedupKeepFirst]
  | cons a t ih =>
    simp only [dedupKeepFirst, List.mem_cons, List.mem_filter, ih, decide_eq_true_eq]
    by_cases hxa : x = a
    · simp [hxa]
    · simp [hxa]

theorem nodup_dedupKeepFirst {α : Type} [DecidableEq α] :
    ∀ l : List α, (dedupKeepFirst l).Nodup := by
  intro l
  induction l with
  | nil => exact List.nodup_nil
  | cons a t ih =>
    refine List.Nodup.cons ?_ (List.Nodup.filter _ ih)
    intro hmem
    have := (List.mem_filter.mp hmem).2
    simp at this

namespace ASGraph

/-- The auxiliary node set as a finite set. -/
def auxV (g : ASGraph) : Finset AuxNode := g.aux_nodes.toFinset

/-- The edge relation of the auxiliary graph. -/
def auxEdge (g : ASGraph) (x y : AuxNode) : Prop := (x, y) ∈ g.aux_edges

/-- The predecessor set of an auxiliary node. -/
def predsF (g : ASGraph) (x : AuxNode) : Finset AuxNode := (g.aux_preds x).toFinset

theorem aux_edges_nodup (g : ASGraph) : g.aux_edges.Nodup := nodup_dedupKeepFirst _

theorem mem_aux_succs (g : ASGraph) (x y : AuxNode) :
    y ∈ g.aux_succs x ↔ g.auxEdge x y := by
  unfold aux_succs auxEdge
  rw [List.mem_map]
  constructor
  · rintro ⟨e, he, rfl⟩
    have h1 := List.mem_filter.mp he
    have h2 : e.1 = x := by simpa using h1.2
    have : e = (x, e.2) := by
      cases e
      simp_all
    rw [← this]
    exact h1.1
  · intro h
    exact ⟨(x, y), List.mem_filter.mpr ⟨h, by simp⟩, rfl⟩

theorem mem_aux_preds (g : ASGraph) (x y : AuxNode) :
    y ∈ g.aux_preds x ↔ g.auxEdge y x := by
  unfold aux_preds auxEdge
  rw [List.mem_map]
  constructor
  · rintro ⟨e, he, rfl⟩
    have h1 := List.mem_filter.mp he
    have h2 : e.2 = x := by simpa using h1.2
    have : e = (e.1, x) := by
      cases e
      simp_all
    rw [← this]
    exact h1.1
  · intro h
    exact ⟨(y, x), List.mem_filter.mpr ⟨h, by simp⟩, rfl⟩

theorem mem_predsF (g : ASGraph) (x y : AuxNode) :
    y ∈ g.predsF x ↔ g.auxEdge y x := by
  unfold predsF
  rw [List.mem_toFinset]
  exact mem_aux_preds g x y

theorem aux_preds_nodup (g : ASGraph) (x : AuxNode) : (g.aux_preds x).Nodup := by
  unfold aux_preds
  refine List.Nodup.map_on ?_ (List.Nodup.filter _ (aux_edges_nodup g))
  intro e1 he1 e2 he2 hf
  have h1 : e1.2 = x := by simpa using (List.mem_filter.mp he1).2
  have h2 : e2.2 = x := by simpa using (List.mem_filter.mp he2).2
  cases e1
  cases e2
  simp_all

theorem aux_succs_nodup (g : ASGraph) (x : AuxNode) : (g.aux_succs x).Nodup := by
  unfold aux_succs
  refine List.Nodup.map_on ?_ (List.Nodup.filter _ (aux_edges_nodup g))
  intro e1 he1 e2 he2 hf
  have h1 : e1.1 = x := by simpa using (List.mem_filter.mp he1).2
  have h2 : e2.1 = x := by simpa using (List.mem_filter.mp he2).2
  cases e1
  cases e2
  simp_all

theorem aux_in_degree_eq_card (g : ASGraph) (x : AuxNode) :
    g.aux_in_degree x = (g.predsF x).card := by
  unfold aux_in_degree predsF
  exact (List.toFinset_card_of_nodup (aux_preds_nodup g x)).symm

theorem mem_aux_nodes (g : ASGraph) (x : AuxNode) :
    x ∈ g.aux_nodes ↔ x.2 ∈ dkeys g.asyss := by
  unfold aux_nodes
  rw [List.mem_flatMap]
  constructor
  · rintro ⟨p, hp, hx⟩
    rcases List.mem_cons.mp hx with h | h
    · subst h
      exact List.mem_map.mpr ⟨p, hp, rfl⟩
    · rcases List.mem_cons.mp h with h | h
      · subst h
        exact List.mem_map.mpr ⟨p, hp, rfl⟩
      · cases h
  · intro hx
    rcases List.mem_map.mp hx with ⟨p, hp, hpe⟩
    obtain ⟨s, v⟩ := x
    cases s
    · exact ⟨p, hp, by simp [hpe]⟩
    · exact ⟨p, hp, by simp [hpe]⟩

theorem aux_nodes_nodup (g : ASGraph) (hkeys : (dkeys g.asyss).Nodup) :
    g.aux_nodes.Nodup := by
  unfold aux_nodes
  have : ∀ (l : List (AS_ID × AS)), (dkeys l).Nodup →
      (l.flatMap (fun p => [(Side.l, p.1), (Side.r, p.1)])).Nodup := by
    intro l
    induction l with
    | nil => intro _; exact List.nodup_nil
    | cons p t ih =>
      intro hnd
      have hnd' := hnd
      rw [show dkeys (p :: t) = p.1 :: dkeys t from rfl, List.nodup_cons] at hnd'
      simp only [List.flatMap_cons]
      refine List.Nodup.append ?_ (ih hnd'.2) ?_
      · simp
      · intro x hx1 hx2
        rcases List.mem_flatMap.mp hx2 with ⟨q, hq, hxq⟩
        have hxid : x.2 = q.1 := by
          rcases List.mem_cons.mp hxq with h | h
          · rw [h]
          · rcases List.mem_cons.mp h with h | h
            · rw [h]
            · cases h
        have hxp : x.2 = p.1 := by
          rcases List.mem_cons.mp hx1 with h | h
          · rw [h]
          · rcases List.mem_cons.mp h with h | h
            · rw [h]
            · cases h
        have hmem : p.1 ∈ dkeys t :=
          List.mem_map.mpr ⟨q, hq, hxid.symm.trans hxp⟩
        exact hnd'.1 hmem
  exact this g.asyss hkeys

theorem mem_auxV (g : ASGraph) (x : AuxNode) : x ∈ g.auxV ↔ x.2 ∈ dkeys g.asyss := by
  unfold auxV
  rw [List.mem_toFinset]
  exact mem_aux_nodes g x

/-- With neighbor keys contained in the graph's key set, auxiliary edges stay
inside the auxiliary node set. -/
theorem aux_edges_mem (g : ASGraph)
    (hnbr : ∀ (id : AS_ID) (a : AS), (id, a) ∈ g.asyss →
      ∀ q ∈ a.neighbors, q.1 ∈ dkeys g.asyss) :
    ∀ e ∈ g.aux_edges, e.1 ∈ g.auxV ∧ e.2 ∈ g.auxV := by
  intro e he
  unfold aux_edges at he
  have he' := mem_dedupKeepFirst.mp he
  rcases List.mem_append.mp he' with h | h
  · rcases List.mem_map.mp h with ⟨p, hp, hpe⟩
    subst hpe
    constructor
    · rw [mem_auxV]
      exact List.mem_map.mpr ⟨p, hp, rfl⟩
    · rw [mem_auxV]
      exact List.mem_map.mpr ⟨p, hp, rfl⟩
  · rcases List.mem_flatMap.mp h with ⟨p, hp, hpe⟩
    rcases List.mem_map.mp hpe with ⟨q, hq, hqe⟩
    have hid : p.1 ∈ dkeys g.asyss := List.mem_map.mpr ⟨p, hp, rfl⟩
    have hnid : q.1 ∈ dkeys g.asyss := hnbr p.1 p.2 hp q hq
    cases hr : q.2 with
    | customer =>
      rw [hr] at hqe
      subst hqe
      exact ⟨(mem_auxV g _).mpr hid, (mem_auxV g _).mpr hnid⟩
    | peer =>
      rw [hr] at hqe
      subst hqe
      exact ⟨(mem_auxV g _).mpr hid, (mem_auxV g _).mpr hnid⟩
    | provider =>
      rw [hr] at hqe
      subst hqe
      exact ⟨(mem_auxV g _).mpr hid, (mem_auxV g _).mpr hnid⟩

end ASGraph

/-! ### C5 stage D: ancestor sets and the Kahn traversal -/

namespace ASGraph

/-- The successor function of the auxiliary graph, as finite sets. -/
def succF (g : ASGraph) (z : AuxNode) : Finset AuxNode := (g.aux_succs z).toFinset

theorem mem_succF (g : ASGraph) (x y : AuxNode) : y ∈ g.succF x ↔ g.auxEdge x y := by
  unfold succF
  rw [List.mem_toFinset]
  exact mem_aux_succs g x y

theorem succF_subset_auxV (g : ASGraph)
    (hnbr : ∀ (id : AS_ID) (a : AS), (id, a) ∈ g.asyss →
      ∀ q ∈ a.neighbors, q.1 ∈ dkeys g.asyss) :
    ∀ y, g.succF y ⊆ g.auxV := by
  intro y z hz
  exact (aux_edges_mem g hnbr (y, z) ((mem_succF g y z).mp hz)).2

theorem predF_subset_auxV (g : ASGraph)
    (hnbr : ∀ (id : AS_ID) (a : AS), (id, a) ∈ g.asyss →
      ∀ q ∈ a.neighbors, q.1 ∈ dkeys g.asyss) :
    ∀ y, g.predsF y ⊆ g.auxV := by
  intro y z hz
  exact (aux_edges_mem g hnbr (z, y) ((mem_predsF g y z).mp hz)).1

theorem auxV_card_lt_bound (g : ASGraph) : g.auxV.card + 1 ≤ g.aux_bound := by
  unfold auxV aux_bound
  have := List.toFinset_card_le g.aux_nodes
  omega

theorem rtg_succF_iff (g : ASGraph) (x y : AuxNode) :
    Relation.ReflTransGen (fun a b => b ∈ g.succF a) x y ↔
      Relation.ReflTransGen g.auxEdge x y := by
  constructor
  · exact Relation.ReflTransGen.mono (fun a b h => (mem_succF g a b).mp h)
  · exact Relation.ReflTransGen.mono (fun a b h => (mem_succF g a b).mpr h)

/-- Membership in the computed reach set coincides with reflexive-transitive
auxiliary reachability. -/
theorem mem_auxReach_iff (g : ASGraph)
    (hnbr : ∀ (id : AS_ID) (a : AS), (id, a) ∈ g.asyss →
      ∀ q ∈ a.neighbors, q.1 ∈ dkeys g.asyss) (x y : AuxNode) :
    y ∈ reachSet g.succF g.aux_bound x ↔ Relation.ReflTransGen g.auxEdge x y := by
  rw [mem_reachSet_iff g.succF g.auxV (succF_subset_auxV g hnbr)
    (auxV_card_lt_bound g) x y]
  exact rtg_succF_iff g x y

/-- The set of (nonnegative) AS ids `u` whose `('l', u)` node reaches `x` in
the auxiliary graph, as a set of bit positions. -/
def ancNats (g : ASGraph) (x : AuxNode) : Finset Nat :=
  (((dkeys g.asyss).filter
      (fun u => decide (x ∈ reachSet g.succF g.aux_bound (Side.l, u)))).map
    Int.toNat).toFinset

/-- The seed bit set of an auxiliary node. -/
def seedNats : AuxNode → Finset Nat
  | (Side.l, v) => {v.toNat}
  | (Side.r, _) => ∅

theorem natBits_seedOf (x : AuxNode) : natBits (seedOf x) = seedNats x := by
  obtain ⟨s, v⟩ := x
  cases s
  · exact natBits_one_shiftLeft v.toNat
  · exact natBits_zero

theorem mem_ancNats (g : ASGraph)
    (hnbr : ∀ (id : AS_ID) (a : AS), (id, a) ∈ g.asyss →
      ∀ q ∈ a.neighbors, q.1 ∈ dkeys g.asyss) (x : AuxNode) (t : Nat) :
    t ∈ g.ancNats x ↔ ∃ u ∈ dkeys g.asyss, u.toNat = t ∧
      Relation.ReflTransGen g.auxEdge (Side.l, u) x := by
  unfold ancNats
  rw [List.mem_toFinset, List.mem_map]
  constructor
  · rintro ⟨u, hu, hut⟩
    have h1 := List.mem_filter.mp hu
    refine ⟨u, h1.1, hut, ?_⟩
    have := h1.2
    simp only [decide_eq_true_eq] at this
    exact (mem_auxReach_iff g hnbr _ _).mp this
  · rintro ⟨u, hu, hut, hr⟩
    refine ⟨u, List.mem_filter.mpr ⟨hu, ?_⟩, hut⟩
    simp only [decide_eq_true_eq]
    exact (mem_auxReach_iff g hnbr _ _).mpr hr

/-- Decomposition of the ancestor set along incoming edges. -/
theorem ancNats_decomp (g : ASGraph)
    (hnbr : ∀ (id : AS_ID) (a : AS), (id, a) ∈ g.asyss →
      ∀ q ∈ a.neighbors, q.1 ∈ dkeys g.asyss)
    (x : AuxNode) (hx : x ∈ g.auxV) :
    g.ancNats x = seedNats x ∪ (g.predsF x).biUnion g.ancNats := by
  ext t
  rw [Finset.mem_union, Finset.mem_biUnion, mem_ancNats g hnbr x t]
  constructor
  · rintro ⟨u, hu, hut, hr⟩
    rcases Relation.ReflTransGen.cases_tail hr with heq | ⟨c, hrc, hcx⟩
    · left
      rw [heq]
      show t ∈ seedNats (Side.l, u)
      unfold seedNats
      rw [Finset.mem_singleton]
      exact hut.symm
    · right
      exact ⟨c, (mem_predsF g x c).mpr hcx,
        (mem_ancNats g hnbr c t).mpr ⟨u, hu, hut, hrc⟩⟩
  · intro h
    rcases h with h | ⟨y, hy, hty⟩
    · obtain ⟨sx, vx⟩ := x
      cases sx with
      | l =>
        unfold seedNats at h
        rw [Finset.mem_singleton] at h
        refine ⟨vx, ?_, h.symm, Relation.ReflTransGen.refl⟩
        exact (mem_auxV g (Side.l, vx)).mp hx
      | r =>
        unfold seedNats at h
        cases h
    · rcases (mem_ancNats g hnbr y t).mp hty with ⟨u, hu, hut, hr⟩
      exact ⟨u, hu, hut,
        Relation.ReflTransGen.tail hr ((mem_predsF g x y).mp hy)⟩

/-- Closed form of the inner successor loop: each successor's label absorbs
the popped node's label, its remaining count drops by one, and those hitting
zero are appended to the queue in order. -/
theorem kahnFold_spec (labels rem : AuxNode → Nat) (queue : List AuxNode)
    (src : AuxNode) :
    ∀ S : List AuxNode, S.Nodup →
      kahnFold labels rem queue src S =
        (fun x => if x ∈ S then labels x ||| labels src else labels x,
         fun x => if x ∈ S then rem x - 1 else rem x,
         queue ++ S.filter (fun x => rem x - 1 = 0)) := by
  intro S
  induction S generalizing labels rem queue with
  | nil =>
    intro _
    unfold kahnFold
    refine congrArg₂ Prod.mk ?_ (congrArg₂ Prod.mk ?_ ?_)
    · funext x
      simp
    · funext x
      simp
    · simp
  | cons nxt tl ih =>
    intro hnd
    rw [List.nodup_cons] at hnd
    show kahnFold
      (fun x => if x = nxt then labels nxt ||| labels src else labels x)
      (fun x => if x = nxt then rem nxt - 1 else rem x)
      (if rem nxt - 1 = 0 then queue ++ [nxt] else queue) src tl = _
    rw [ih _ _ _ hnd.2]
    have hlabsrc : (if src = nxt then labels nxt ||| labels src else labels src)
        = labels src := by
      by_cases hsn : src = nxt
      · rw [if_pos hsn, hsn, Nat.or_self]
      · rw [if_neg hsn]
    refine congrArg₂ Prod.mk ?_ (congrArg₂ Prod.mk ?_ ?_)
    · funext x
      rw [hlabsrc]
      by_cases hxtl : x ∈ tl
      · have hxn : ¬ x = nxt := fun h => hnd.1 (h ▸ hxtl)
        simp [hxtl, hxn, List.mem_cons]
      · by_cases hxn : x = nxt
        · subst hxn
          simp [hxtl]
        · simp [hxtl, hxn, List.mem_cons]
    · funext x
      by_cases hxtl : x ∈ tl
      · have hxn : ¬ x = nxt := fun h => hnd.1 (h ▸ hxtl)
        simp [hxtl, hxn, List.mem_cons]
      · by_cases hxn : x = nxt
        · subst hxn
          simp [hxtl]
        · simp [hxtl, hxn, List.mem_cons]
    · have hfil : tl.filter (fun x =>
          decide ((fun x => if x = nxt then rem nxt - 1 else rem x) x - 1 = 0)) =
          tl.filter (fun x => decide (rem x - 1 = 0)) := by
        apply List.filter_congr
        intro x hx
        have hxn : ¬ x = nxt := fun h => hnd.1 (h ▸ hx)
        simp [hxn]
      rw [hfil]
      by_cases hz : rem nxt - 1 = 0
      · rw [if_pos hz]
        rw [show (nxt :: tl).filter (fun x => decide (rem x - 1 = 0)) =
          nxt :: tl.filter (fun x => decide (rem x - 1 = 0)) from by
            rw [List.filter_cons_of_pos (by simp [hz])]]
        simp
      · rw [if_neg hz]
        rw [show (nxt :: tl).filter (fun x => decide (rem x - 1 = 0)) =
          tl.filter (fun x => decide (rem x - 1 = 0)) from by
            rw [List.filter_cons_of_neg (by simp [hz])]]

end ASGraph

namespace ASGraph

/-- The invariant of the Kahn topological traversal: `P` is the (ghost) set
of popped nodes; popped or enqueued nodes have all predecessors popped and
carry their complete ancestor bit set; pending nodes carry the remaining
in-degree and the partial union over popped predecessors. -/
structure KInv (g : ASGraph) (P : Finset AuxNode) (labels rem : AuxNode → Nat)
    (queue : List AuxNode) : Prop where
  hPV : P ⊆ g.auxV
  hQV : ∀ x ∈ queue, x ∈ g.auxV
  hQnd : queue.Nodup
  hQP : ∀ x ∈ queue, x ∉ P
  hTop : ∀ x : AuxNode, (x ∈ P ∨ x ∈ queue) → g.predsF x ⊆ P
  hRem : ∀ x ∈ g.auxV, x ∉ P → x ∉ queue →
    rem x = (g.predsF x \ P).card ∧ (g.predsF x \ P).Nonempty
  hLabC : ∀ x : AuxNode, (x ∈ P ∨ x ∈ queue) → natBits (labels x) = g.ancNats x
  hLabP : ∀ x ∈ g.auxV, x ∉ P → x ∉ queue →
    natBits (labels x) = seedNats x ∪ (g.predsF x ∩ P).biUnion g.ancNats

theorem sdiff_insert_of_not_mem {s t : Finset AuxNode} {a : AuxNode} (h : a ∉ s) :
    s \ insert a t = s \ t := by
  ext y
  simp only [Finset.mem_sdiff, Finset.mem_insert]
  constructor
  · rintro ⟨hy, hn⟩
    exact ⟨hy, fun hyt => hn (Or.inr hyt)⟩
  · rintro ⟨hy, hn⟩
    refine ⟨hy, ?_⟩
    rintro (hya | hyt)
    · exact h (hya ▸ hy)
    · exact hn hyt

theorem sdiff_insert_eq_erase {s t : Finset AuxNode} (a : AuxNode) :
    s \ insert a t = (s \ t).erase a := by
  ext y
  simp only [Finset.mem_sdiff, Finset.mem_insert, Finset.mem_erase]
  tauto

theorem inter_insert_of_mem {s t : Finset AuxNode} {a : AuxNode} (h : a ∈ s) :
    s ∩ insert a t = insert a (s ∩ t) := by
  ext y
  simp only [Finset.mem_inter, Finset.mem_insert]
  constructor
  · rintro ⟨hy, hya | hyt⟩
    · exact Or.inl hya
    · exact Or.inr ⟨hy, hyt⟩
  · rintro (hya | ⟨hy, hyt⟩)
    · exact ⟨hya ▸ h, Or.inl hya⟩
    · exact ⟨hy, Or.inr hyt⟩

theorem inter_insert_of_not_mem {s t : Finset AuxNode} {a : AuxNode} (h : a ∉ s) :
    s ∩ insert a t = s ∩ t := by
  ext y
  simp only [Finset.mem_inter, Finset.mem_insert]
  constructor
  · rintro ⟨hy, hya | hyt⟩
    · exact absurd (hya ▸ hy) h
    · exact ⟨hy, hyt⟩
  · rintro ⟨hy, hyt⟩
    exact ⟨hy, Or.inr hyt⟩

/-- One pop of the Kahn loop preserves the invariant. -/
theorem kInv_step (g : ASGraph)
    (hnbr : ∀ (id : AS_ID) (a : AS), (id, a) ∈ g.asyss →
      ∀ q ∈ a.neighbors, q.1 ∈ dkeys g.asyss)
    (hdag : ∀ x : AuxNode, ¬ Relation.TransGen g.auxEdge x x)
    {P : Finset AuxNode} {labels rem : AuxNode → Nat} {src : AuxNode}
    {rest : List AuxNode}
    (hinv : KInv g P labels rem (src :: rest)) :
    KInv g (insert src P)
      (fun x => if x ∈ g.aux_succs src then labels x ||| labels src else labels x)
      (fun x => if x ∈ g.aux_succs src then rem x - 1 else rem x)
      (rest ++ (g.aux_succs src).filter (fun x => rem x - 1 = 0)) := by
  obtain ⟨hPV, hQV, hQnd, hQP, hTop, hRem, hLabC, hLabP⟩ := hinv
  have hsrcV : src ∈ g.auxV := hQV src (List.mem_cons_self src rest)
  have hsrcP : src ∉ P := hQP src (List.mem_cons_self src rest)
  have hnds := List.nodup_cons.mp hQnd
  have hfresh : ∀ x ∈ g.aux_succs src, x ∉ P ∧ x ∉ (src :: rest) := by
    intro x hx
    have hedge : g.auxEdge src x := (mem_aux_succs g src x).mp hx
    have hsp : src ∈ g.predsF x := (mem_predsF g x src).mpr hedge
    constructor
    · intro hxP
      exact hsrcP (hTop x (Or.inl hxP) hsp)
    · intro hxq
      exact hsrcP (hTop x (Or.inr hxq) hsp)
  have hnoself : src ∉ g.aux_succs src := by
    intro hs
    exact hdag src (Relation.TransGen.single ((mem_aux_succs g src src).mp hs))
  have hsuccV : ∀ x ∈ g.aux_succs src, x ∈ g.auxV := by
    intro x hx
    exact (aux_edges_mem g hnbr (src, x) ((mem_aux_succs g src x).mp hx)).2
  have happmem : ∀ x ∈ (g.aux_succs src).filter (fun x => rem x - 1 = 0),
      x ∈ g.aux_succs src ∧ rem x - 1 = 0 := by
    intro x hx
    have h := List.mem_filter.mp hx
    exact ⟨h.1, by simpa using h.2⟩
  have hsingleton : ∀ x ∈ g.aux_succs src, rem x - 1 = 0 →
      g.predsF x \ P = {src} := by
    intro x hx hz
    have hxf := hfresh x hx
    have hxV := hsuccV x hx
    have hrem := hRem x hxV hxf.1 hxf.2
    have hsp : src ∈ g.predsF x \ P :=
      Finset.mem_sdiff.mpr ⟨(mem_predsF g x src).mpr ((mem_aux_succs g src x).mp hx), hsrcP⟩
    have hc1 : (g.predsF x \ P).card = 1 := by
      have hpos := Finset.card_pos.mpr hrem.2
      omega
    obtain ⟨a, ha⟩ := Finset.card_eq_one.mp hc1
    rw [ha] at hsp
    rw [Finset.mem_singleton] at hsp
    rw [ha, hsp]
  refine ⟨?_, ?_, ?_, ?_, ?_, ?_, ?_, ?_⟩
  · exact Finset.insert_subset hsrcV hPV
  · intro x hx
    rcases List.mem_append.mp hx with hx | hx
    · exact hQV x (List.mem_cons_of_mem _ hx)
    · exact hsuccV x (happmem x hx).1
  · refine List.Nodup.append hnds.2 (List.Nodup.filter _ (aux_succs_nodup g src)) ?_
    intro x hx1 hx2
    exact (hfresh x (happmem x hx2).1).2 (List.mem_cons_of_mem _ hx1)
  · intro x hx
    rcases List.mem_append.mp hx with hx | hx
    · intro hxin
      rcases Finset.mem_insert.mp hxin with hxs | hxP
      · exact hnds.1 (hxs ▸ hx)
      · exact hQP x (List.mem_cons_of_mem _ hx) hxP
    · obtain ⟨hxs, hxz⟩ := happmem x hx
      intro hxin
      rcases Finset.mem_insert.mp hxin with hxe | hxP
      · exact hnoself (hxe ▸ hxs)
      · exact (hfresh x hxs).1 hxP
  · intro x hx
    rcases hx with hx | hx
    · rcases Finset.mem_insert.mp hx with hxe | hxP
      · subst hxe
        exact (hTop x (Or.inr (List.mem_cons_self x rest))).trans (Finset.subset_insert _ _)
      · exact (hTop x (Or.inl hxP)).trans (Finset.subset_insert _ _)
    · rcases List.mem_append.mp hx with hx | hx
      · exact (hTop x (Or.inr (List.mem_cons_of_mem _ hx))).trans (Finset.subset_insert _ _)
      · obtain ⟨hxs, hxz⟩ := happmem x hx
        have hsing := hsingleton x hxs hxz
        intro y hy
        by_cases hyP : y ∈ P
        · exact Finset.mem_insert_of_mem hyP
        · have : y ∈ g.predsF x \ P := Finset.mem_sdiff.mpr ⟨hy, hyP⟩
          rw [hsing, Finset.mem_singleton] at this
          exact Finset.mem_insert.mpr (Or.inl this)
  · intro x hxV hxP' hxq'
    have hxP : x ∉ P := fun h => hxP' (Finset.mem_insert_of_mem h)
    have hxsrc : x ≠ src := fun h => hxP' (h ▸ Finset.mem_insert_self _ _)
    have hxrest : x ∉ rest := fun h => hxq' (List.mem_append.mpr (Or.inl h))
    have hxq : x ∉ (src :: rest) := by
      intro h
      rcases List.mem_cons.mp h with h | h
      · exact hxsrc h
      · exact hxrest h
    have hrem := hRem x hxV hxP hxq
    by_cases hxs : x ∈ g.aux_succs src
    · rw [if_pos hxs]
      have hxnotz : ¬ (rem x - 1 = 0) := by
        intro hz
        exact hxq' (List.mem_append.mpr (Or.inr (List.mem_filter.mpr ⟨hxs, by simpa using hz⟩)))
      have hsp : src ∈ g.predsF x \ P :=
        Finset.mem_sdiff.mpr ⟨(mem_predsF g x src).mpr ((mem_aux_succs g src x).mp hxs), hsrcP⟩
      have hcard2 : 2 ≤ (g.predsF x \ P).card := by
        have hpos := Finset.card_pos.mpr hrem.2
        omega
      rw [sdiff_insert_eq_erase src]
      constructor
      · rw [Finset.card_erase_of_mem hsp, hrem.1]
      · rw [← Finset.card_pos, Finset.card_erase_of_mem hsp]
        omega
    · rw [if_neg hxs]
      have hsnp : src ∉ g.predsF x := by
        intro h
        exact hxs ((mem_aux_succs g src x).mpr ((mem_predsF g x src).mp h))
      rw [sdiff_insert_of_not_mem hsnp]
      exact hrem
  · intro x hx
    rcases hx with hx | hx
    · rcases Finset.mem_insert.mp hx with hxe | hxP
      · subst hxe
        rw [if_neg hnoself]
        exact hLabC x (Or.inr (List.mem_cons_self x rest))
      · have hxs : x ∉ g.aux_succs src := fun h => (hfresh x h).1 hxP
        rw [if_neg hxs]
        exact hLabC x (Or.inl hxP)
    · rcases List.mem_append.mp hx with hx | hx
      · have hxs : x ∉ g.aux_succs src := fun h => (hfresh x h).2 (List.mem_cons_of_mem _ hx)
        rw [if_neg hxs]
        exact hLabC x (Or.inr (List.mem_cons_of_mem _ hx))
      · obtain ⟨hxs, hxz⟩ := happmem x hx
        rw [if_pos hxs]
        have hxf := hfresh x hxs
        have hxV := hsuccV x hxs
        rw [natBits_lor, hLabP x hxV hxf.1 hxf.2,
          hLabC src (Or.inr (List.mem_cons_self src rest))]
        have hsing := hsingleton x hxs hxz
        have hpx : g.predsF x = insert src (g.predsF x ∩ P) := by
          ext y
          simp only [Finset.mem_insert, Finset.mem_inter]
          constructor
          · intro hy
            by_cases hyP : y ∈ P
            · exact Or.inr ⟨hy, hyP⟩
            · left
              have : y ∈ g.predsF x \ P := Finset.mem_sdiff.mpr ⟨hy, hyP⟩
              rw [hsing, Finset.mem_singleton] at this
              exact this
          · rintro (hye | ⟨hy, _⟩)
            · subst hye
              have : y ∈ g.predsF x \ P := by
                rw [hsing]
                exact Finset.mem_singleton_self y
              exact (Finset.mem_sdiff.mp this).1
            · exact hy
        calc (seedNats x ∪ (g.predsF x ∩ P).biUnion g.ancNats) ∪ g.ancNats src
            = seedNats x ∪ ((g.predsF x ∩ P).biUnion g.ancNats ∪ g.ancNats src) :=
              Finset.union_assoc _ _ _
          _ = seedNats x ∪ (g.ancNats src ∪ (g.predsF x ∩ P).biUnion g.ancNats) := by
              rw [Finset.union_comm ((g.predsF x ∩ P).biUnion g.ancNats) (g.ancNats src)]
          _ = seedNats x ∪ (insert src (g.predsF x ∩ P)).biUnion g.ancNats := by
              rw [Finset.biUnion_insert]
          _ = seedNats x ∪ (g.predsF x).biUnion g.ancNats := by rw [← hpx]
          _ = g.ancNats x := (ancNats_decomp g hnbr x hxV).symm
  · intro x hxV hxP' hxq'
    have hxP : x ∉ P := fun h => hxP' (Finset.mem_insert_of_mem h)
    have hxsrc : x ≠ src := fun h => hxP' (h ▸ Finset.mem_insert_self _ _)
    have hxrest : x ∉ rest := fun h => hxq' (List.mem_append.mpr (Or.inl h))
    have hxq : x ∉ (src :: rest) := by
      intro h
      rcases List.mem_cons.mp h with h | h
      · exact hxsrc h
      · exact hxrest h
    by_cases hxs : x ∈ g.aux_succs src
    · rw [if_pos hxs]
      have hsp : src ∈ g.predsF x :=
        (mem_predsF g x src).mpr ((mem_aux_succs g src x).mp hxs)
      rw [natBits_lor, hLabP x hxV hxP hxq,
        hLabC src (Or.inr (List.mem_cons_self src rest))]
      calc (seedNats x ∪ (g.predsF x ∩ P).biUnion g.ancNats) ∪ g.ancNats src
          = seedNats x ∪ ((g.predsF x ∩ P).biUnion g.ancNats ∪ g.ancNats src) :=
            Finset.union_assoc _ _ _
        _ = seedNats x ∪ (g.ancNats src ∪ (g.predsF x ∩ P).biUnion g.ancNats) := by
            rw [Finset.union_comm ((g.predsF x ∩ P).biUnion g.ancNats) (g.ancNats src)]
        _ = seedNats x ∪ (insert src (g.predsF x ∩ P)).biUnion g.ancNats := by
            rw [Finset.biUnion_insert]
        _ = seedNats x ∪ (g.predsF x ∩ insert src P).biUnion g.ancNats := by
            rw [inter_insert_of_mem hsp]
    · rw [if_neg hxs]
      have hsnp : src ∉ g.predsF x := by
        intro h
        exact hxs ((mem_aux_succs g src x).mpr ((mem_predsF g x src).mp h))
      rw [inter_insert_of_not_mem hsnp]
      exact hLabP x hxV hxP hxq

end ASGraph

namespace ASGraph

/-- The invariant holds at the start of the Kahn traversal. -/
theorem kInv_init (g : ASGraph)
    (hkeys : (dkeys g.asyss).Nodup)
    (hnbr : ∀ (id : AS_ID) (a : AS), (id, a) ∈ g.asyss →
      ∀ q ∈ a.neighbors, q.1 ∈ dkeys g.asyss) :
    KInv g ∅ seedOf g.aux_in_degree
      (g.aux_nodes.filter (fun x => g.aux_in_degree x = 0)) := by
  have hqmem : ∀ x ∈ g.aux_nodes.filter (fun x => g.aux_in_degree x = 0),
      x ∈ g.aux_nodes ∧ g.aux_in_degree x = 0 := by
    intro x hx
    have h := List.mem_filter.mp hx
    exact ⟨h.1, by simpa using h.2⟩
  have hqpred : ∀ x ∈ g.aux_nodes.filter (fun x => g.aux_in_degree x = 0),
      g.predsF x = ∅ := by
    intro x hx
    have h := (hqmem x hx).2
    rw [aux_in_degree_eq_card] at h
    exact Finset.card_eq_zero.mp h
  refine ⟨?_, ?_, ?_, ?_, ?_, ?_, ?_, ?_⟩
  · exact Finset.empty_subset _
  · intro x hx
    rw [mem_auxV g x, ← mem_aux_nodes g x]
    exact (hqmem x hx).1
  · exact List.Nodup.filter _ (aux_nodes_nodup g hkeys)
  · intro x _
    exact Finset.not_mem_empty x
  · intro x hx
    rcases hx with hx | hx
    · exact absurd hx (Finset.not_mem_empty x)
    · rw [hqpred x hx]
  · intro x hxV hxP hxq
    have hxn : x ∈ g.aux_nodes := (mem_aux_nodes g x).mpr ((mem_auxV g x).mp hxV)
    have hnz : ¬ g.aux_in_degree x = 0 := by
      intro hz
      exact hxq (List.mem_filter.mpr ⟨hxn, by simpa using hz⟩)
    rw [Finset.sdiff_empty]
    constructor
    · exact aux_in_degree_eq_card g x
    · rw [← Finset.card_pos]
      have := aux_in_degree_eq_card g x
      omega
  · intro x hx
    rcases hx with hx | hx
    · exact absurd hx (Finset.not_mem_empty x)
    · rw [natBits_seedOf]
      have hxV : x ∈ g.auxV := by
        rw [mem_auxV g x, ← mem_aux_nodes g x]
        exact (hqmem x hx).1
      rw [ancNats_decomp g hnbr x hxV, hqpred x hx]
      simp
  · intro x hxV hxP hxq
    rw [natBits_seedOf, Finset.inter_empty, Finset.biUnion_empty, Finset.union_empty]

/-- If the queue drains while unpopped nodes remain, an infinite predecessor
chain inside the finite unpopped set yields an auxiliary cycle. -/
theorem kInv_done (g : ASGraph)
    (hnbr : ∀ (id : AS_ID) (a : AS), (id, a) ∈ g.asyss →
      ∀ q ∈ a.neighbors, q.1 ∈ dkeys g.asyss)
    (hdag : ∀ x : AuxNode, ¬ Relation.TransGen g.auxEdge x x)
    {P : Finset AuxNode} {labels rem : AuxNode → Nat}
    (hinv : KInv g P labels rem []) :
    ∀ x ∈ g.auxV, x ∈ P := by
  by_contra hcon
  push_neg at hcon
  obtain ⟨x0, hx0V, hx0P⟩ := hcon
  have hpick : ∀ z : {z : AuxNode // z ∈ g.auxV \ P},
      ∃ w : {z : AuxNode // z ∈ g.auxV \ P}, g.auxEdge w.val z.val := by
    rintro ⟨z, hz⟩
    have hzm := Finset.mem_sdiff.mp hz
    have hrem := hinv.hRem z hzm.1 hzm.2 (List.not_mem_nil z)
    obtain ⟨w, hw⟩ := hrem.2
    have hw' := Finset.mem_sdiff.mp hw
    exact ⟨⟨w, Finset.mem_sdiff.mpr ⟨predF_subset_auxV g hnbr z hw'.1, hw'.2⟩⟩,
      (mem_predsF g z w).mp hw'.1⟩
  choose f hf using hpick
  have hseq : ∀ (z0 : {z : AuxNode // z ∈ g.auxV \ P}) (n : Nat),
      g.auxEdge (f^[n + 1] z0).val (f^[n] z0).val := by
    intro z0 n
    rw [Function.iterate_succ_apply']
    exact hf _
  have hchain : ∀ (z0 : {z : AuxNode // z ∈ g.auxV \ P}) (m d : Nat),
      Relation.TransGen g.auxEdge (f^[m + d + 1] z0).val (f^[m] z0).val := by
    intro z0 m d
    induction d with
    | zero => exact Relation.TransGen.single (hseq z0 m)
    | succ d ih =>
      have h1 : Relation.TransGen g.auxEdge (f^[m + d + 2] z0).val (f^[m + d + 1] z0).val :=
        Relation.TransGen.single (hseq z0 (m + d + 1))
      have h2 := h1.trans ih
      have he : m + (d + 1) + 1 = m + d + 2 := by omega
      rw [he]
      exact h2
  set z0 : {z : AuxNode // z ∈ g.auxV \ P} :=
    ⟨x0, Finset.mem_sdiff.mpr ⟨hx0V, hx0P⟩⟩ with hz0
  obtain ⟨i, j, hij, hseq2⟩ :=
    Finite.exists_ne_map_eq_of_infinite (fun n : Nat => f^[n] z0)
  rcases Nat.lt_or_ge i j with hlt | hge
  · have hc := hchain z0 i (j - i - 1)
    have he : i + (j - i - 1) + 1 = j := by omega
    rw [he] at hc
    rw [hseq2] at hc
    exact hdag _ hc
  · have hlt : j < i := by omega
    have hc := hchain z0 j (i - j - 1)
    have he : j + (i - j - 1) + 1 = i := by omega
    rw [he] at hc
    rw [← hseq2] at hc
    exact hdag _ hc

/-- After the Kahn loop, every auxiliary node's bitfield holds exactly its
ancestor set. -/
theorem kahnLoop_complete (g : ASGraph)
    (hnbr : ∀ (id : AS_ID) (a : AS), (id, a) ∈ g.asyss →
      ∀ q ∈ a.neighbors, q.1 ∈ dkeys g.asyss)
    (hdag : ∀ x : AuxNode, ¬ Relation.TransGen g.auxEdge x x) :
    ∀ (fuel : Nat) (P : Finset AuxNode) (labels rem : AuxNode → Nat)
      (queue : List AuxNode),
      KInv g P labels rem queue →
      g.auxV.card < fuel + P.card →
      ∀ x ∈ g.auxV, natBits (kahnLoop g.aux_succs fuel labels rem queue x) = g.ancNats x := by
  intro fuel
  induction fuel with
  | zero =>
    intro P labels rem queue hinv hfuel x hx
    have := Finset.card_le_card hinv.hPV
    omega
  | succ f ih =>
    intro P labels rem queue hinv hfuel x hx
    cases queue with
    | nil =>
      show natBits (labels x) = _
      exact hinv.hLabC x (Or.inl (kInv_done g hnbr hdag hinv x hx))
    | cons src rest =>
      have hstep := kInv_step g hnbr hdag hinv
      have hsrcP : src ∉ P := hinv.hQP src (List.mem_cons_self src rest)
      have hcard : g.auxV.card < f + (insert src P).card := by
        rw [Finset.card_insert_of_not_mem hsrcP]
        omega
      have hloopstep : kahnLoop g.aux_succs (f + 1) labels rem (src :: rest) =
          kahnLoop g.aux_succs f
            (fun y => if y ∈ g.aux_succs src then labels y ||| labels src else labels y)
            (fun y => if y ∈ g.aux_succs src then rem y - 1 else rem y)
            (rest ++ (g.aux_succs src).filter (fun y => rem y - 1 = 0)) := by
        have hfold := kahnFold_spec labels rem rest src (g.aux_succs src)
          (aux_succs_nodup g src)
        simp only [kahnLoop, hfold]
      rw [hloopstep]
      exact ih (insert src P) _ _ _ hstep hcard x hx

end ASGraph

/-- With duplicate-free keys, membership determines the lookup. -/
theorem dlookup_of_mem_nodup {GA GB : Type} [DecidableEq GA] {k : GA} {v : GB} :
    ∀ {l : List (GA × GB)}, (dkeys l).Nodup → (k, v) ∈ l → dlookup k l = some v := by
  intro l
  induction l with
  | nil => intro _ h; cases h
  | cons p t ih =>
    obtain ⟨a, b⟩ := p
    intro hnd hm
    have hnd' := List.nodup_cons.mp hnd
    rcases List.mem_cons.mp hm with h | h
    · cases h
      simp [dlookup]
    · have hak : ¬ a = k := by
        intro hak
        subst hak
        exact hnd'.1 (List.mem_map.mpr ⟨(a, v), h, rfl⟩)
      simp only [dlookup, if_neg hak]
      exact ih hnd'.2 h

/-- Looking up a key-derived map of an association list. -/
theorem dlookup_mapkey {GA GB GC : Type} [DecidableEq GA] (h : GA → GC) :
    ∀ (l : List (GA × GB)) (k : GA), k ∈ dkeys l →
      dlookup k (l.map (fun p => (p.1, h p.1))) = some (h k) := by
  intro l
  induction l with
  | nil => intro k hk; cases hk
  | cons p t ih =>
    obtain ⟨a, b⟩ := p
    intro k hk
    by_cases hak : a = k
    · subst hak
      simp [dlookup]
    · simp only [List.map_cons, dlookup, if_neg hak]
      apply ih
      rcases List.mem_cons.mp hk with h' | h'
      · exact absurd h'.symm hak
      · exact h'

namespace ASGraph

/-- Closed form of `determine_reachability_all` on an acyclic auxiliary
graph: each AS is mapped to the size of its ancestor set. -/
theorem determine_all_eq (g : ASGraph)
    (hkeys : (dkeys g.asyss).Nodup)
    (hnbr : ∀ (id : AS_ID) (a : AS), (id, a) ∈ g.asyss →
      ∀ q ∈ a.neighbors, q.1 ∈ dkeys g.asyss)
    (hdag : ∀ x : AuxNode, ¬ Relation.TransGen g.auxEdge x x) :
    g.determine_reachability_all =
      g.asyss.map (fun p => (p.1, (g.ancNats (Side.r, p.1)).card)) := by
  have hfuel : g.auxV.card < g.aux_bound + (∅ : Finset AuxNode).card := by
    have := auxV_card_lt_bound g
    rw [Finset.card_empty]
    omega
  have hmain := kahnLoop_complete g hnbr hdag g.aux_bound ∅ seedOf g.aux_in_degree
    (g.aux_nodes.filter (fun x => g.aux_in_degree x = 0))
    (kInv_init g hkeys hnbr) hfuel
  show g.asyss.map (fun p => (p.1,
      bit_count (kahnLoop g.aux_succs g.aux_bound seedOf g.aux_in_degree
        (g.aux_nodes.filter (fun x => g.aux_in_degree x = 0)) (Side.r, p.1)))) = _
  apply List.map_congr_left
  intro p hp
  have hpV : (Side.r, p.1) ∈ g.auxV := by
    rw [mem_auxV]
    exact List.mem_map.mpr ⟨p, hp, rfl⟩
  have h1 := hmain (Side.r, p.1) hpV
  rw [bit_count_card, h1]

end ASGraph

namespace ASGraph

/-- Predecessor steps are reversed auxiliary edges, transitively. -/
theorem rtg_predF_iff (g : ASGraph) (x y : AuxNode) :
    Relation.ReflTransGen (fun a b => b ∈ g.predsF a) x y ↔
      Relation.ReflTransGen g.auxEdge y x := by
  constructor
  · intro h
    have h2 : Relation.ReflTransGen (Function.swap g.auxEdge) x y :=
      h.mono (fun a b hab => (mem_predsF g a b).mp hab)
    exact Relation.reflTransGen_swap.mp h2
  · intro h
    have h2 : Relation.ReflTransGen (Function.swap g.auxEdge) x y :=
      Relation.reflTransGen_swap.mpr h
    exact h2.mono (fun a b hab => (mem_predsF g a b).mpr hab)

/-- Membership in the modelled `nx.ancestors` set. -/
theorem mem_aux_ancestors (g : ASGraph)
    (hnbr : ∀ (id : AS_ID) (a : AS), (id, a) ∈ g.asyss →
      ∀ q ∈ a.neighbors, q.1 ∈ dkeys g.asyss) (x y : AuxNode) :
    y ∈ g.aux_ancestors x ↔
      Relation.ReflTransGen g.auxEdge y x ∧ y ≠ x := by
  show y ∈ reachSet g.predsF g.aux_bound x \ {x} ↔ _
  rw [Finset.mem_sdiff, Finset.mem_singleton,
    mem_reachSet_iff g.predsF g.auxV (predF_subset_auxV g hnbr)
      (auxV_card_lt_bound g) x y, rtg_predF_iff g x y]

/-- Ancestors lie in the auxiliary node set. -/
theorem aux_ancestors_subset (g : ASGraph)
    (hnbr : ∀ (id : AS_ID) (a : AS), (id, a) ∈ g.asyss →
      ∀ q ∈ a.neighbors, q.1 ∈ dkeys g.asyss) (x : AuxNode) :
    ∀ y ∈ g.aux_ancestors x, y ∈ g.auxV := by
  intro y hy
  have hy' : y ∈ reachSet g.predsF g.aux_bound x \ {x} := hy
  have h1 := Finset.mem_sdiff.mp hy'
  have h2 : y ∈ insert x g.auxV :=
    iterate_growStep_subset_univ g.predsF g.auxV (predF_subset_auxV g hnbr) x
      g.aux_bound h1.1
  rcases Finset.mem_insert.mp h2 with h | h
  · exact absurd h (by simpa using h1.2)
  · exact h

/-- `determine_reachability_one` counts exactly the ancestor bit set of the
queried node (nonnegative ids make bit positions injective). -/
theorem determine_one_eq (g : ASGraph)
    (hnbr : ∀ (id : AS_ID) (a : AS), (id, a) ∈ g.asyss →
      ∀ q ∈ a.neighbors, q.1 ∈ dkeys g.asyss)
    (hpos : ∀ u ∈ dkeys g.asyss, 0 ≤ u) (v : AS_ID) :
    g.determine_reachability_one v = (g.ancNats (Side.r, v)).card := by
  unfold determine_reachability_one
  refine Finset.card_bij (fun x _ => x.2.toNat) ?_ ?_ ?_
  · intro a ha
    have h1 := Finset.mem_filter.mp ha
    have h2 := (mem_aux_ancestors g hnbr (Side.r, v) a).mp h1.1
    have haV : a ∈ g.auxV := aux_ancestors_subset g hnbr (Side.r, v) a h1.1
    have hadk : a.2 ∈ dkeys g.asyss := (mem_auxV g a).mp haV
    rw [mem_ancNats g hnbr]
    refine ⟨a.2, hadk, rfl, ?_⟩
    have hae : a = (Side.l, a.2) := by
      obtain ⟨s, u⟩ := a
      have : s = Side.l := h1.2
      rw [this]
    rw [← hae]
    exact h2.1
  · intro a1 ha1 a2 ha2 heq
    have h1 := Finset.mem_filter.mp ha1
    have h2 := Finset.mem_filter.mp ha2
    have hd1 : a1.2 ∈ dkeys g.asyss :=
      (mem_auxV g a1).mp (aux_ancestors_subset g hnbr (Side.r, v) a1 h1.1)
    have hd2 : a2.2 ∈ dkeys g.asyss :=
      (mem_auxV g a2).mp (aux_ancestors_subset g hnbr (Side.r, v) a2 h2.1)
    have he2 : a1.2 = a2.2 := by
      have e1 : ((a1.2.toNat : Int)) = a1.2 := Int.toNat_of_nonneg (hpos a1.2 hd1)
      have e2 : ((a2.2.toNat : Int)) = a2.2 := Int.toNat_of_nonneg (hpos a2.2 hd2)
      have heq' : a1.2.toNat = a2.2.toNat := heq
      rw [← e1, ← e2, heq']
    have hs1 : a1.1 = Side.l := h1.2
    have hs2 : a2.1 = Side.l := h2.2
    obtain ⟨s1, u1⟩ := a1
    obtain ⟨s2, u2⟩ := a2
    simp only at hs1 hs2 he2
    rw [hs1, hs2, he2]
  · intro t ht
    rcases (mem_ancNats g hnbr (Side.r, v) t).mp ht with ⟨u, hu, hut, hr⟩
    refine ⟨(Side.l, u), ?_, hut⟩
    refine Finset.mem_filter.mpr ⟨?_, rfl⟩
    rw [mem_aux_ancestors g hnbr]
    refine ⟨hr, ?_⟩
    intro h
    cases h

end ASGraph

namespace ASGraph

/-- The per-edge constructor step of `ASGraph.__init__` (the body of the
edge loop of `ofNx`, named for reuse in proofs). -/
def edgeStep (g : ASGraph) (e : AS_ID × AS_ID × Option AS_ID) : ASGraph :=
  match e.2.2 with
  | none => (g.updAS e.1 (·.add_peer e.2.1)).updAS e.2.1 (·.add_peer e.1)
  | some c =>
    if c = e.1 then
      (g.updAS e.1 (·.add_provider e.2.1)).updAS e.2.1 (·.add_customer e.1)
    else if c = e.2.1 then
      (g.updAS e.1 (·.add_customer e.2.1)).updAS e.2.1 (·.add_provider e.1)
    else g

theorem ofNx_eq (nxg : NxGraph) :
    ASGraph.ofNx nxg = nxg.edges.foldl edgeStep
      ⟨nxg.nodes.map (fun id =>
        (id, AS.reset_routing_table ⟨id, [], false, false, false, []⟩))⟩ := rfl

theorem dkeys_updAS (g : ASGraph) (x : AS_ID) (f : AS → AS) :
    dkeys (g.updAS x f).asyss = dkeys g.asyss := by
  show (g.asyss.map (fun p => if p.1 = x then (p.1, f p.2) else p)).map Prod.fst =
    g.asyss.map Prod.fst
  rw [List.map_map]
  apply List.map_congr_left
  intro p _
  show (if p.1 = x then (p.1, f p.2) else p).1 = p.1
  by_cases h : p.1 = x
  · rw [if_pos h]
  · rw [if_neg h]

theorem dkeys_edgeStep (g : ASGraph) (e : AS_ID × AS_ID × Option AS_ID) :
    dkeys (edgeStep g e).asyss = dkeys g.asyss := by
  obtain ⟨a1, a2, c⟩ := e
  cases c with
  | none =>
    show dkeys ((g.updAS a1 (·.add_peer a2)).updAS a2 (·.add_peer a1)).asyss = _
    rw [dkeys_updAS, dkeys_updAS]
  | some cv =>
    show dkeys (if cv = a1 then
        (g.updAS a1 (·.add_provider a2)).updAS a2 (·.add_customer a1)
      else if cv = a2 then
        (g.updAS a1 (·.add_customer a2)).updAS a2 (·.add_provider a1)
      else g).asyss = _
    by_cases h1 : cv = a1
    · rw [if_pos h1, dkeys_updAS, dkeys_updAS]
    · rw [if_neg h1]
      by_cases h2 : cv = a2
      · rw [if_pos h2, dkeys_updAS, dkeys_updAS]
      · rw [if_neg h2]

theorem dkeys_foldl_edgeStep :
    ∀ (es : List (AS_ID × AS_ID × Option AS_ID)) (G : ASGraph),
      dkeys (es.foldl edgeStep G).asyss = dkeys G.asyss := by
  intro es
  induction es with
  | nil => intro G; rfl
  | cons e t ih =>
    intro G
    rw [List.foldl_cons, ih, dkeys_edgeStep]

/-- Construction keeps exactly the `networkx` node list as keys. -/
theorem ofNx_dkeys (nxg : NxGraph) :
    dkeys (ASGraph.ofNx nxg).asyss = nxg.nodes := by
  rw [ofNx_eq, dkeys_foldl_edgeStep]
  show (nxg.nodes.map (fun id =>
    (id, AS.reset_routing_table ⟨id, [], false, false, false, []⟩))).map Prod.fst = _
  rw [List.map_map]
  have h1 : nxg.nodes.map (Prod.fst ∘ (fun id =>
      (id, AS.reset_routing_table ⟨id, [], false, false, false, []⟩))) =
      nxg.nodes.map id := List.map_congr_left (fun a _ => rfl)
  rw [h1, List.map_id]

theorem mem_updAS_elim {g : ASGraph} {x : AS_ID} {f : AS → AS} {id : AS_ID} {a : AS}
    (h : (id, a) ∈ (g.updAS x f).asyss) :
    ∃ a0, (id, a0) ∈ g.asyss ∧ ((id ≠ x ∧ a = a0) ∨ (id = x ∧ a = f a0)) := by
  rcases List.mem_map.mp h with ⟨p, hp, hpe⟩
  by_cases hx : p.1 = x
  · rw [if_pos hx] at hpe
    have h1 : p.1 = id := congrArg Prod.fst hpe
    have h2 : f p.2 = a := congrArg Prod.snd hpe
    refine ⟨p.2, ?_, Or.inr ⟨h1 ▸ hx, h2.symm⟩⟩
    rw [← h1]
    exact hp
  · rw [if_neg hx] at hpe
    rw [hpe] at hp hx
    exact ⟨a, hp, Or.inl ⟨hx, rfl⟩⟩

/-- Invariant template for per-AS properties preserved by every neighbor
insertion with a node-valued key. -/
theorem ofNx_as_prop (nxg : NxGraph) (hwf : nxg.WF) (P : AS_ID → AS → Prop)
    (hinit : ∀ id : AS_ID, P id (AS.reset_routing_table ⟨id, [], false, false, false, []⟩))
    (hins : ∀ (id : AS_ID) (a : AS) (t : AS_ID) (rl : Relation), t ∈ nxg.nodes → P id a →
      P id { a with neighbors := dinsert t rl a.neighbors }) :
    ∀ (id : AS_ID) (a : AS), (id, a) ∈ (ASGraph.ofNx nxg).asyss → P id a := by
  have hcomp : ∀ (G : ASGraph), (∀ (id : AS_ID) (a : AS), (id, a) ∈ G.asyss → P id a) →
      ∀ (x1 x2 : AS_ID) (f1 f2 : AS → AS),
      (∀ (id : AS_ID) (a : AS), P id a → P id (f1 a)) →
      (∀ (id : AS_ID) (a : AS), P id a → P id (f2 a)) →
      ∀ (id : AS_ID) (a : AS), (id, a) ∈ ((G.updAS x1 f1).updAS x2 f2).asyss → P id a := by
    intro G hG x1 x2 f1 f2 hf1 hf2 id a ha
    obtain ⟨a1, h1, hd1⟩ := mem_updAS_elim ha
    obtain ⟨a0, h0, hd0⟩ := mem_updAS_elim h1
    have hP0 := hG id a0 h0
    have hP1 : P id a1 := by
      rcases hd0 with ⟨_, he⟩ | ⟨_, he⟩
      · rw [he]; exact hP0
      · rw [he]; exact hf1 id a0 hP0
    rcases hd1 with ⟨_, he⟩ | ⟨_, he⟩
    · rw [he]; exact hP1
    · rw [he]; exact hf2 id a1 hP1
  have hgen : ∀ es : List (AS_ID × AS_ID × Option AS_ID),
      (∀ e ∈ es, e.1 ∈ nxg.nodes ∧ e.2.1 ∈ nxg.nodes) →
      ∀ G : ASGraph, (∀ (id : AS_ID) (a : AS), (id, a) ∈ G.asyss → P id a) →
      ∀ (id : AS_ID) (a : AS), (id, a) ∈ (es.foldl edgeStep G).asyss → P id a := by
    intro es
    induction es with
    | nil => intro _ G hG; simpa using hG
    | cons e t ih =>
      intro hmem G hG
      rw [List.foldl_cons]
      apply ih (fun q hq => hmem q (List.mem_cons_of_mem _ hq))
      have he1 := (hmem e (List.mem_cons_self e t)).1
      have he2 := (hmem e (List.mem_cons_self e t)).2
      obtain ⟨a1, a2, c⟩ := e
      intro id a ha
      cases c with
      | none =>
        refine hcomp G hG a1 a2 _ _ ?_ ?_ id a ha
        · exact fun id a h => hins id a a2 Relation.peer he2 h
        · exact fun id a h => hins id a a1 Relation.peer he1 h
      | some cv =>
        have ha' : (id, a) ∈ (if cv = a1 then
            (G.updAS a1 (·.add_provider a2)).updAS a2 (·.add_customer a1)
          else if cv = a2 then
            (G.updAS a1 (·.add_customer a2)).updAS a2 (·.add_provider a1)
          else G).asyss := ha
        by_cases hc1 : cv = a1
        · rw [if_pos hc1] at ha'
          refine hcomp G hG a1 a2 _ _ ?_ ?_ id a ha'
          · exact fun id a h => hins id a a2 Relation.provider he2 h
          · exact fun id a h => hins id a a1 Relation.customer he1 h
        · rw [if_neg hc1] at ha'
          by_cases hc2 : cv = a2
          · rw [if_pos hc2] at ha'
            refine hcomp G hG a1 a2 _ _ ?_ ?_ id a ha'
            · exact fun id a h => hins id a a2 Relation.customer he2 h
            · exact fun id a h => hins id a a1 Relation.provider he1 h
          · rw [if_neg hc2] at ha'
            exact hG id a ha'
  rw [ofNx_eq]
  refine hgen nxg.edges (fun e he => ⟨hwf.edgeFst e he, hwf.edgeSnd e he⟩) _ ?_
  intro id a ha
  rcases List.mem_map.mp ha with ⟨i, _, hie⟩
  have h1 : i = id := congrArg Prod.fst hie
  have h2 : AS.reset_routing_table ⟨i, [], false, false, false, []⟩ = a :=
    congrArg Prod.snd hie
  rw [← h2, h1]
  exact hinit id

/-- Every neighbor key of a constructed AS is a graph key. -/
theorem ofNx_hnbr (nxg : NxGraph) (hwf : nxg.WF) :
    ∀ (id : AS_ID) (a : AS), (id, a) ∈ (ASGraph.ofNx nxg).asyss →
      ∀ q ∈ a.neighbors, q.1 ∈ dkeys (ASGraph.ofNx nxg).asyss := by
  have h := ofNx_as_prop nxg hwf (fun _ a => ∀ q ∈ a.neighbors, q.1 ∈ nxg.nodes)
    (fun id q hq => absurd hq (List.not_mem_nil q))
    (fun id a t rl ht hP q hq => by
      rcases mem_dinsert hq with he | hm
      · have : q.1 = t := by rw [he]
        rw [this]; exact ht
      · exact hP q hm)
  intro id a ha q hq
  rw [ofNx_dkeys]
  exact h id a ha q hq

theorem dkeys_dinsert {GA GB : Type} [DecidableEq GA] (k : GA) (v : GB) :
    ∀ l : List (GA × GB),
      dkeys (dinsert k v l) = if k ∈ dkeys l then dkeys l else dkeys l ++ [k] := by
  intro l
  induction l with
  | nil => simp [dinsert, dkeys]
  | cons p t ih =>
    obtain ⟨a, b⟩ := p
    show dkeys (if a = k then (a, v) :: t else (a, b) :: dinsert k v t) = _
    by_cases hak : a = k
    · subst hak
      rw [if_pos rfl]
      have hm : a ∈ dkeys ((a, b) :: t) := List.mem_cons_self a _
      rw [if_pos hm]
      rfl
    · rw [if_neg hak]
      show a :: dkeys (dinsert k v t) = _
      rw [ih]
      have hmem : (k ∈ dkeys ((a, b) :: t)) ↔ k ∈ dkeys t := by
        show (k ∈ a :: dkeys t) ↔ _
        constructor
        · intro h
          rcases List.mem_cons.mp h with h | h
          · exact absurd h.symm hak
          · exact h
        · exact fun h => List.mem_cons_of_mem _ h
      by_cases hkt : k ∈ dkeys t
      · rw [if_pos hkt, if_pos (hmem.mpr hkt)]
        rfl
      · rw [if_neg hkt, if_neg (fun h => hkt (hmem.mp h))]
        rfl

theorem nodup_dkeys_dinsert {GA GB : Type} [DecidableEq GA] (k : GA) (v : GB)
    {l : List (GA × GB)} (h : (dkeys l).Nodup) : (dkeys (dinsert k v l)).Nodup := by
  rw [dkeys_dinsert]
  by_cases hm : k ∈ dkeys l
  · rw [if_pos hm]; exact h
  · rw [if_neg hm]
    refine List.Nodup.append h (List.nodup_singleton k) ?_
    intro x hx hk
    rw [List.mem_singleton] at hk
    subst hk
    exact hm hx

/-- Constructed neighbor maps have duplicate-free keys. -/
theorem ofNx_nnd (nxg : NxGraph) (hwf : nxg.WF) :
    ∀ (id : AS_ID) (a : AS), (id, a) ∈ (ASGraph.ofNx nxg).asyss →
      (dkeys a.neighbors).Nodup :=
  ofNx_as_prop nxg hwf (fun _ a => (dkeys a.neighbors).Nodup)
    (fun _ => List.nodup_nil)
    (fun id a t rl _ hP => nodup_dkeys_dinsert t rl hP)

end ASGraph

namespace ASGraph

/-- No constructed AS ever records itself as a provider: the only writes of
PROVIDER target the opposite endpoint, and on a self-loop edge the later
`add_customer` overwrites the `add_provider` in the same dict slot. -/
theorem ofNx_no_self_provider (nxg : NxGraph) :
    ∀ (id : AS_ID) (a : AS), (id, a) ∈ (ASGraph.ofNx nxg).asyss →
      dlookup id a.neighbors ≠ some Relation.provider := by
  have hpeer : ∀ (t id : AS_ID) (a : AS), dlookup id a.neighbors ≠ some Relation.provider →
      dlookup id (a.add_peer t).neighbors ≠ some Relation.provider := by
    intro t id a hQ
    show dlookup id (dinsert t Relation.peer a.neighbors) ≠ _
    by_cases hti : t = id
    · subst hti
      rw [dlookup_dinsert_self]
      intro h
      cases Option.some.inj h
    · rw [dlookup_dinsert_ne _ (fun hh => hti hh.symm)]
      exact hQ
  have hcust : ∀ (t id : AS_ID) (a : AS), dlookup id a.neighbors ≠ some Relation.provider →
      dlookup id (a.add_customer t).neighbors ≠ some Relation.provider := by
    intro t id a hQ
    show dlookup id (dinsert t Relation.customer a.neighbors) ≠ _
    by_cases hti : t = id
    · subst hti
      rw [dlookup_dinsert_self]
      intro h
      cases Option.some.inj h
    · rw [dlookup_dinsert_ne _ (fun hh => hti hh.symm)]
      exact hQ
  have hprov : ∀ (t id : AS_ID) (a : AS), t ≠ id →
      dlookup id a.neighbors ≠ some Relation.provider →
      dlookup id (a.add_provider t).neighbors ≠ some Relation.provider := by
    intro t id a hti hQ
    show dlookup id (dinsert t Relation.provider a.neighbors) ≠ _
    rw [dlookup_dinsert_ne _ (fun hh => hti hh.symm)]
    exact hQ
  have hgen : ∀ es : List (AS_ID × AS_ID × Option AS_ID),
      ∀ G : ASGraph,
      (∀ (id : AS_ID) (a : AS), (id, a) ∈ G.asyss →
        dlookup id a.neighbors ≠ some Relation.provider) →
      ∀ (id : AS_ID) (a : AS), (id, a) ∈ (es.foldl edgeStep G).asyss →
        dlookup id a.neighbors ≠ some Relation.provider := by
    intro es
    induction es with
    | nil => intro G hG; simpa using hG
    | cons e t ih =>
      intro G hG
      rw [List.foldl_cons]
      apply ih
      obtain ⟨a1, a2, c⟩ := e
      intro id a ha
      cases c with
      | none =>
        have ha' : (id, a) ∈
            ((G.updAS a1 (·.add_peer a2)).updAS a2 (·.add_peer a1)).asyss := ha
        obtain ⟨b1, h1, hd1⟩ := mem_updAS_elim ha'
        obtain ⟨b0, h0, hd0⟩ := mem_updAS_elim h1
        have hQ1 : dlookup id b1.neighbors ≠ some Relation.provider := by
          rcases hd0 with ⟨_, he0⟩ | ⟨_, he0⟩
          · rw [he0]; exact hG id b0 h0
          · rw [he0]; exact hpeer a2 id b0 (hG id b0 h0)
        rcases hd1 with ⟨_, he⟩ | ⟨_, he⟩
        · rw [he]; exact hQ1
        · rw [he]; exact hpeer a1 id b1 hQ1
      | some cv =>
        have ha' : (id, a) ∈ (if cv = a1 then
            (G.updAS a1 (·.add_provider a2)).updAS a2 (·.add_customer a1)
          else if cv = a2 then
            (G.updAS a1 (·.add_customer a2)).updAS a2 (·.add_provider a1)
          else G).asyss := ha
        by_cases hc1 : cv = a1
        · rw [if_pos hc1] at ha'
          obtain ⟨b1, h1, hd1⟩ := mem_updAS_elim ha'
          obtain ⟨b0, h0, hd0⟩ := mem_updAS_elim h1
          rcases hd1 with ⟨hne2, he⟩ | ⟨heq2, he⟩
          · rw [he]
            rcases hd0 with ⟨_, he0⟩ | ⟨_, he0⟩
            · rw [he0]; exact hG id b0 h0
            · rw [he0]
              exact hprov a2 id b0 (fun h => hne2 h.symm) (hG id b0 h0)
          · rw [he]
            by_cases ha1id : a1 = id
            · show dlookup id (dinsert a1 Relation.customer b1.neighbors) ≠ _
              rw [ha1id, dlookup_dinsert_self]
              intro h
              cases Option.some.inj h
            · apply hcust a1 id b1
              rcases hd0 with ⟨_, he0⟩ | ⟨heq1, he0⟩
              · rw [he0]; exact hG id b0 h0
              · exact absurd heq1.symm ha1id
        · rw [if_neg hc1] at ha'
          by_cases hc2 : cv = a2
          · rw [if_pos hc2] at ha'
            have hne12 : a1 ≠ a2 := fun h => hc1 (hc2.trans h.symm)
            obtain ⟨b1, h1, hd1⟩ := mem_updAS_elim ha'
            obtain ⟨b0, h0, hd0⟩ := mem_updAS_elim h1
            rcases hd1 with ⟨_, he⟩ | ⟨heq2, he⟩
            · rw [he]
              rcases hd0 with ⟨_, he0⟩ | ⟨_, he0⟩
              · rw [he0]; exact hG id b0 h0
              · rw [he0]; exact hcust a2 id b0 (hG id b0 h0)
            · rw [he]
              apply hprov a1 id b1 (fun h => hne12 (h.trans heq2))
              rcases hd0 with ⟨_, he0⟩ | ⟨heq1, he0⟩
              · rw [he0]; exact hG id b0 h0
              · exact absurd (heq1.symm.trans heq2) hne12
          · rw [if_neg hc2] at ha'
            exact hG id a ha'
  rw [ofNx_eq]
  apply hgen
  intro id a ha
  rcases List.mem_map.mp ha with ⟨i, _, hie⟩
  have h2 : AS.reset_routing_table ⟨i, [], false, false, false, []⟩ = a :=
    congrArg Prod.snd hie
  rw [← h2]
  intro h
  cases h

/-- In a constructed graph no AS relates to itself as PROVIDER. -/
theorem ofNx_rel_no_self_provider (nxg : NxGraph) (v : AS_ID) :
    (ASGraph.ofNx nxg).rel v v ≠ some Relation.provider := by
  intro h
  unfold ASGraph.rel at h
  cases hg : (ASGraph.ofNx nxg).get_asys v with
  | none => rw [hg] at h; cases h
  | some a =>
    rw [hg] at h
    simp only [Option.some_bind] at h
    have hmem : (v, a) ∈ (ASGraph.ofNx nxg).asyss := dlookup_mem hg
    exact ofNx_no_self_provider nxg v a hmem h

end ASGraph

namespace ASGraph

/-- Every auxiliary edge is a self edge `('l',v) → ('r',v)` or arises from a
neighbor entry with the side pattern of its relation. -/
theorem auxEdge_cases (g : ASGraph) {x y : AuxNode} (h : g.auxEdge x y) :
    (∃ p ∈ g.asyss, x = (Side.l, p.1) ∧ y = (Side.r, p.1)) ∨
    (∃ p ∈ g.asyss, ∃ q ∈ p.2.neighbors,
      (q.2 = Relation.customer ∧ x = (Side.r, p.1) ∧ y = (Side.r, q.1)) ∨
      (q.2 = Relation.peer ∧ x = (Side.l, p.1) ∧ y = (Side.r, q.1)) ∨
      (q.2 = Relation.provider ∧ x = (Side.l, p.1) ∧ y = (Side.l, q.1))) := by
  have h' := mem_dedupKeepFirst.mp h
  rcases List.mem_append.mp h' with hA | hB
  · rcases List.mem_map.mp hA with ⟨p, hp, hpe⟩
    exact Or.inl ⟨p, hp, (congrArg Prod.fst hpe).symm, (congrArg Prod.snd hpe).symm⟩
  · rcases List.mem_flatMap.mp hB with ⟨p, hp, hpe⟩
    rcases List.mem_map.mp hpe with ⟨q, hq, hqe⟩
    obtain ⟨qid, qrel⟩ := q
    refine Or.inr ⟨p, hp, (qid, qrel), hq, ?_⟩
    cases qrel with
    | customer =>
      exact Or.inl ⟨rfl, (congrArg Prod.fst hqe).symm, (congrArg Prod.snd hqe).symm⟩
    | peer =>
      exact Or.inr (Or.inl ⟨rfl, (congrArg Prod.fst hqe).symm,
        (congrArg Prod.snd hqe).symm⟩)
    | provider =>
      exact Or.inr (Or.inr ⟨rfl, (congrArg Prod.fst hqe).symm,
        (congrArg Prod.snd hqe).symm⟩)

/-- An edge out of an `'r'` node is a customer edge to another `'r'` node. -/
theorem auxEdge_from_r (g : ASGraph) (hkeys : (dkeys g.asyss).Nodup)
    {v : AS_ID} {y : AuxNode} (h : g.auxEdge (Side.r, v) y) :
    ∃ w, y = (Side.r, w) ∧ w ∈ g.cust_succs v := by
  rcases auxEdge_cases g h with ⟨p, _, hx, _⟩ | ⟨p, hp, q, hq, hcase⟩
  · cases congrArg Prod.fst hx
  · rcases hcase with ⟨hrel, hx, hy⟩ | ⟨_, hx, _⟩ | ⟨_, hx, _⟩
    · have hv : v = p.1 := congrArg Prod.snd hx
      refine ⟨q.1, hy, ?_⟩
      show q.1 ∈ g.cust_succs v
      unfold cust_succs
      have hget : g.get_asys v = some p.2 := by
        rw [hv]
        exact dlookup_of_mem_nodup hkeys hp
      rw [hget]
      exact List.mem_map.mpr ⟨q, List.mem_filter.mpr ⟨hq, by simp [hrel]⟩, rfl⟩
    · cases congrArg Prod.fst hx
    · cases congrArg Prod.fst hx

/-- An edge into an `'l'` node comes from an `'l'` node along a PROVIDER
entry; with the mirror property and no self-provider, the target is a
customer of the source. -/
theorem auxEdge_to_l (g : ASGraph) (hkeys : (dkeys g.asyss).Nodup)
    (hnnd : ∀ (id : AS_ID) (a : AS), (id, a) ∈ g.asyss → (dkeys a.neighbors).Nodup)
    (hnsp : ∀ v : AS_ID, g.rel v v ≠ some Relation.provider) (hmir : Mirror g)
    {x : AuxNode} {w : AS_ID} (h : g.auxEdge x (Side.l, w)) :
    ∃ v, x = (Side.l, v) ∧ v ∈ g.cust_succs w := by
  rcases auxEdge_cases g h with ⟨p, _, _, hy⟩ | ⟨p, hp, q, hq, hcase⟩
  · cases congrArg Prod.fst hy
  · rcases hcase with ⟨_, _, hy⟩ | ⟨_, _, hy⟩ | ⟨hrel, hx, hy⟩
    · cases congrArg Prod.fst hy
    · cases congrArg Prod.fst hy
    · have hw : w = q.1 := congrArg Prod.snd hy
      have hget : g.get_asys p.1 = some p.2 := dlookup_of_mem_nodup hkeys hp
      have hqm : (q.1, Relation.provider) ∈ p.2.neighbors := by
        rw [← hrel]
        exact hq
      have hrelpw : g.rel p.1 w = some Relation.provider := by
        unfold ASGraph.rel
        rw [hget]
        simp only [Option.some_bind]
        show dlookup w p.2.neighbors = some Relation.provider
        rw [hw]
        exact dlookup_of_mem_nodup (hnnd p.1 p.2 hp) hqm
      have hne : p.1 ≠ w := by
        intro hpw
        rw [hpw] at hrelpw
        exact hnsp w hrelpw
      have hrelwp : g.rel w p.1 = some Relation.customer :=
        ((hmir w p.1 (fun hh => hne hh.symm)).1).mpr hrelpw
      refine ⟨p.1, hx, ?_⟩
      unfold cust_succs
      cases hgw : g.get_asys w with
      | none =>
        unfold ASGraph.rel at hrelwp
        rw [hgw] at hrelwp
        cases hrelwp
      | some aw =>
        unfold ASGraph.rel at hrelwp
        rw [hgw] at hrelwp
        simp only [Option.some_bind] at hrelwp
        have hmemw : (p.1, Relation.customer) ∈ aw.neighbors := dlookup_mem hrelwp
        exact List.mem_map.mpr
          ⟨(p.1, Relation.customer), List.mem_filter.mpr ⟨hmemw, by simp⟩, rfl⟩

/-- A false `any_customer_provider_cycles` outlaws customer cycles. -/
theorem acyc_of_flag (g : ASGraph)
    (hnbr : ∀ (id : AS_ID) (a : AS), (id, a) ∈ g.asyss →
      ∀ q ∈ a.neighbors, q.1 ∈ dkeys g.asyss)
    (hfalse : g.any_customer_provider_cycles = false) :
    ∀ v : AS_ID, ¬ Relation.TransGen (fun a b => b ∈ g.cust_succs a) v v := by
  have hcs : ∀ y w : AS_ID, w ∈ g.cust_succs y → w ∈ dkeys g.asyss := by
    intro y w hw
    unfold cust_succs at hw
    cases hg : g.get_asys y with
    | none => rw [hg] at hw; cases hw
    | some a =>
      rw [hg] at hw
      rcases List.mem_map.mp hw with ⟨q, hq, hqe⟩
      have hq1 := (List.mem_filter.mp hq).1
      rw [← hqe]
      exact hnbr y a (dlookup_mem hg) q hq1
  intro v hv
  obtain ⟨w, hvw, hwv⟩ := Relation.TransGen.head'_iff.mp hv
  have hvdk : v ∈ dkeys g.asyss := by
    have hvw' := hvw
    unfold cust_succs at hvw'
    cases hg : g.get_asys v with
    | none => rw [hg] at hvw'; cases hvw'
    | some a => exact List.mem_map.mpr ⟨(v, a), dlookup_mem hg, rfl⟩
  have hb : (dkeys g.asyss).toFinset.card + 1 ≤ g.asyss.length + 1 := by
    have h1 := List.toFinset_card_le (dkeys g.asyss)
    have h2 : (dkeys g.asyss).length = g.asyss.length := List.length_map _ _
    omega
  have hreach : v ∈ reachSet (fun y => (g.cust_succs y).toFinset)
      (g.asyss.length + 1) w := by
    apply (mem_reachSet_iff (fun y => (g.cust_succs y).toFinset)
      (dkeys g.asyss).toFinset
      (fun y z hz => List.mem_toFinset.mpr (hcs y z (List.mem_toFinset.mp hz)))
      hb w v).mpr
    exact hwv.mono (fun a b hab => List.mem_toFinset.mpr hab)
  have htrue : g.any_customer_provider_cycles = true :=
    List.any_eq_true.mpr ⟨v, hvdk,
      List.any_eq_true.mpr ⟨w, hvw, decide_eq_true hreach⟩⟩
  rw [hfalse] at htrue
  cases htrue

/-- Transitive paths out of an `'r'` node stay on the `'r'` side and project
to customer paths. -/
theorem transGen_r_proj (g : ASGraph) (hkeys : (dkeys g.asyss).Nodup) :
    ∀ {x y : AuxNode}, Relation.TransGen g.auxEdge x y → x.1 = Side.r →
      y.1 = Side.r ∧
        Relation.TransGen (fun a b : AS_ID => b ∈ g.cust_succs a) x.2 y.2 := by
  intro x y h
  induction h with
  | single hxy =>
    intro hx
    have hxe : x = (Side.r, x.2) := by
      rw [← hx]
    rw [hxe] at hxy
    obtain ⟨w, hyw, hcw⟩ := auxEdge_from_r g hkeys hxy
    subst hyw
    exact ⟨rfl, Relation.TransGen.single hcw⟩
  | @tail b c h1 hbc ih =>
    intro hx
    have hb := ih hx
    have hbe : b = (Side.r, b.2) := by
      rw [← hb.1]
    rw [hbe] at hbc
    obtain ⟨w, hcw, hcust⟩ := auxEdge_from_r g hkeys hbc
    subst hcw
    exact ⟨rfl, Relation.TransGen.tail hb.2 hcust⟩

/-- Transitive paths into an `'l'` node come from the `'l'` side and project
to reversed customer paths. -/
theorem transGen_l_proj (g : ASGraph) (hkeys : (dkeys g.asyss).Nodup)
    (hnnd : ∀ (id : AS_ID) (a : AS), (id, a) ∈ g.asyss → (dkeys a.neighbors).Nodup)
    (hnsp : ∀ v : AS_ID, g.rel v v ≠ some Relation.provider) (hmir : Mirror g) :
    ∀ {x y : AuxNode}, Relation.TransGen g.auxEdge x y → y.1 = Side.l →
      x.1 = Side.l ∧
        Relation.TransGen (fun a b : AS_ID => b ∈ g.cust_succs a) y.2 x.2 := by
  intro x y h
  have hsw : Relation.TransGen (Function.swap g.auxEdge) y x :=
    Relation.transGen_swap.mpr h
  clear h
  induction hsw with
  | @single b hyx =>
    intro hy
    have hye : y = (Side.l, y.2) := by
      rw [← hy]
    have hedge : g.auxEdge b (Side.l, y.2) := by
      rw [← hye]
      exact hyx
    obtain ⟨v, hxv, hcv⟩ := auxEdge_to_l g hkeys hnnd hnsp hmir hedge
    subst hxv
    exact ⟨rfl, Relation.TransGen.single hcv⟩
  | @tail b c h1 hbc ih =>
    intro hy
    have hb := ih hy
    have hbe : b = (Side.l, b.2) := by
      rw [← hb.1]
    have hedge : g.auxEdge c (Side.l, b.2) := by
      rw [← hbe]
      exact hbc
    obtain ⟨v, hcv, hcust⟩ := auxEdge_to_l g hkeys hnnd hnsp hmir hedge
    subst hcv
    exact ⟨rfl, Relation.TransGen.tail hb.2 hcust⟩

/-- Without customer-provider cycles the auxiliary graph is acyclic. -/
theorem hdag_of_no_cycles (g : ASGraph) (hkeys : (dkeys g.asyss).Nodup)
    (hnnd : ∀ (id : AS_ID) (a : AS), (id, a) ∈ g.asyss → (dkeys a.neighbors).Nodup)
    (hnsp : ∀ v : AS_ID, g.rel v v ≠ some Relation.provider) (hmir : Mirror g)
    (hnbr : ∀ (id : AS_ID) (a : AS), (id, a) ∈ g.asyss →
      ∀ q ∈ a.neighbors, q.1 ∈ dkeys g.asyss)
    (hfalse : g.any_customer_provider_cycles = false) :
    ∀ x : AuxNode, ¬ Relation.TransGen g.auxEdge x x := by
  have hacyc := acyc_of_flag g hnbr hfalse
  intro x hx
  obtain ⟨s, u⟩ := x
  cases s with
  | l => exact hacyc u (transGen_l_proj g hkeys hnnd hnsp hmir hx rfl).2
  | r => exact hacyc u (transGen_r_proj g hkeys hx rfl).2

end ASGraph

/-- C5: on every well-formed graph with (unsigned) nonnegative AS ids whose
customer-provider relation is acyclic, `determine_reachability_one(v)` equals
the entry for `v` in the mapping returned by `determine_reachability_all()`,
for every AS `v` in the graph. -/
theorem C5_reachability_agreement (nxg : NxGraph) (hwf : nxg.WF)
    (hpos : ∀ u ∈ nxg.nodes, 0 ≤ u)
    (hacyc : (ASGraph.ofNx nxg).any_customer_provider_cycles = false) :
    ∀ v ∈ nxg.nodes,
      dlookup v (ASGraph.ofNx nxg).determine_reachability_all =
        some ((ASGraph.ofNx nxg).determine_reachability_one v) := by
  intro v hv
  have hdk := ASGraph.ofNx_dkeys nxg
  have hkeys : (dkeys (ASGraph.ofNx nxg).asyss).Nodup := by
    rw [hdk]
    exact hwf.nodesNodup
  have hnbr := ASGraph.ofNx_hnbr nxg hwf
  have hnnd := ASGraph.ofNx_nnd nxg hwf
  have hnsp := ASGraph.ofNx_rel_no_self_provider nxg
  have hmir := mirror_ofNx nxg hwf
  have hdag := ASGraph.hdag_of_no_cycles (ASGraph.ofNx nxg) hkeys hnnd hnsp hmir
    hnbr hacyc
  have hall := ASGraph.determine_all_eq (ASGraph.ofNx nxg) hkeys hnbr hdag
  have hpos' : ∀ u ∈ dkeys (ASGraph.ofNx nxg).asyss, 0 ≤ u := by
    rw [hdk]
    exact hpos
  have hone := ASGraph.determine_one_eq (ASGraph.ofNx nxg) hnbr hpos' v
  rw [hall, hone]
  exact dlookup_mapkey (fun u => ((ASGraph.ofNx nxg).ancNats (Side.r, u)).card)
    (ASGraph.ofNx nxg).asyss v (by rw [hdk]; exact hv)

/-- The agreement theorem evaluated on the three-AS chain graph. -/
theorem C5_reachability_agreement_witness :
    chainNx.WF ∧ (ASGraph.ofNx chainNx).any_customer_provider_cycles = false ∧
    dlookup (1 : AS_ID) (ASGraph.ofNx chainNx).determine_reachability_all =
      some ((ASGraph.ofNx chainNx).determine_reachability_one 1) :=
  ⟨⟨by decide, by decide, by decide, by decide⟩, by rfl,
    C5_reachability_agreement chainNx ⟨by decide, by decide, by decide, by decide⟩
      (by decide) (by rfl) 1 (by decide)⟩

theorem C9_hijack_min_length_witness :
    (1 + 1 : Int) ≤ (((Route.mk 1 [1, 2, 3] false true false).path.length : Nat) : Int) :=
  @C9_hijack_min_length chainGraph 1 2 1 [] 30
    (okOr (chainGraph.clear_routing_tables.hijack_n_hops 1 2 1 [] 30) ⟨[]⟩)
    (by decide) (by decide) (by intro h; exact absurd h (by decide)) rfl
    3 ⟨3, [(2, Relation.customer)], false, false, false,
        [(3, ⟨3, [3], false, false, true⟩), (1, ⟨1, [1, 2, 3], false, true, false⟩)]⟩
    (by decide) (Route.mk 1 [1, 2, 3] false true false) (by decide) (by decide)

